import Mathlib

/-!
# Verification of the scheduling-policy engine (CFS.c, DPS-DTQ.c, reference-paper-algo.c)

This file is a shallow embedding of the three scheduler simulators of the
repository, translated directly from the C sources:

* `DPS-DTQ.c`  — dynamic-priority scheduling with a dynamic time quantum
  (`runDPS_DTQ`, `calculateDynamicPriority`, `sortQueueByPriority`, ...);
* `CFS.c`      — the weighted-fair ("CFS-like") scheduler with a binary tree
  ordered by vruntime (`runCFS`, `insert`, `extractMinVruntime`, ...);
* `reference-paper-algo.c` — the adaptive-SRPT scheduler (`main` loop,
  `mean`, `median`, ...).

Modelling conventions:
* C `int` fields are `ℤ`; C `double` values are `ℚ` (exact real arithmetic is
  the idealisation of the binary floating point used by the source; every
  concrete run evaluated below only involves values whose double rounding
  agrees with the rational result).
* A C cast `(int)x` truncates toward zero; it is modelled by `cIntCast`.
* A C division whose double result would be NaN (0.0/0.0) is modelled by the
  checked division `cdiv`, which returns `none` on a zero denominator.
* Pointers into the global process array are modelled as indices (`ℕ`) into a
  `List` of process records; the tree/queue of the schedulers store indices,
  so aliasing (two tree nodes pointing at the same mutated process) behaves
  exactly as in the C source.
-/

/-- The C cast `(int)x` applied to a double: truncation toward zero. -/
def cIntCast (q : ℚ) : ℤ :=
  if 0 ≤ q then q.floor else -((-q).floor)

/-- A C double division, modelled as undefined (`none`) when the denominator
is zero (in C the degenerate 0.0/0.0 produces NaN, and x/0.0 produces ±inf;
either way no real number is produced). -/
def cdiv (a b : ℚ) : Option ℚ :=
  if b = 0 then none else some (a / b)

/-! ## The process record and quantum record of `DPS-DTQ.c` -/

/-- The `Process` struct of `DPS-DTQ.c`: static description plus mutable
simulation state.  `sysPriority` is the `system_priority` field, which
`calculateDynamicPriority` overwrites with the scaled computed priority. -/
structure DProc where
  id : ℤ
  arrival : ℤ
  burst : ℤ
  remaining : ℤ
  completionTime : ℤ
  waiting : ℤ
  turnaround : ℤ
  response : ℤ
  firstExec : ℤ
  deadline : ℤ
  crit : ℤ
  period : ℤ
  sysPriority : ℤ
  executed : Bool
  completed : Bool
deriving Inhabited, DecidableEq

/-- The `DynamicQuantum` struct of `DPS-DTQ.c`. -/
structure DQuantum where
  base : ℚ
  current : ℚ
  loadFactor : ℚ
  critWeight : ℚ
  deadlineWeight : ℚ
  agingWeight : ℚ
  priorityWeight : ℚ
deriving Inhabited, DecidableEq

/-- Look a process up by index (a C pointer dereference). -/
def dGet (ps : List DProc) (i : ℕ) : DProc := ps.getD i default

/-- `calculateAgingFactor` of `DPS-DTQ.c` (lines 148-160). -/
def calculateAgingFactor (p : DProc) (t : ℤ) : ℚ :=
  let waitingTime : ℤ := t - p.arrival - (p.burst - p.remaining)
  let agingFactor : ℚ := if waitingTime > 0 then (waitingTime : ℚ) / 10 else 0
  if agingFactor > 1 then 1 else agingFactor

/-- `calculateDynamicPriority` of `DPS-DTQ.c` (lines 163-210).  Returns the
updated process (its `system_priority` field is overwritten with
`(int)(priority*100)`), the updated quantum record (its `current` field is
recomputed), and — as an observation — the computed priority value itself,
which in C is a local variable. -/
def calculateDynamicPriority (p : DProc) (t : ℤ) (dtq : DQuantum) :
    DProc × DQuantum × ℚ :=
  let criticalityComponent : ℚ := (p.crit : ℚ) / 10
  let deadlineComponent : ℚ :=
    if p.deadline > 0 then
      (if p.deadline - t ≤ 0 then 1 else 1 / (1 + ((p.deadline - t : ℤ) : ℚ)))
    else 0
  -- the period component is computed in the source but never added to the sum
  let agingComponent : ℚ := calculateAgingFactor p t
  let systemPriorityComponent : ℚ := (p.sysPriority : ℚ) / 10
  let priority : ℚ :=
    dtq.critWeight * criticalityComponent +
    dtq.deadlineWeight * deadlineComponent +
    dtq.agingWeight * agingComponent +
    dtq.priorityWeight * systemPriorityComponent
  let dtq' := { dtq with
    current := dtq.base * (1 + priority) * (1 - 1/2 * dtq.loadFactor) }
  ({ p with sysPriority := cIntCast (priority * 100) }, dtq', priority)

/-- `enqueue` of `DPS-DTQ.c`: the queue silently drops the element when full
(`MAX_QUEUE_SIZE = 100`). -/
def dEnqueue (q : List ℕ) (i : ℕ) : List ℕ :=
  if q.length = 100 then q else q ++ [i]

/-- The first loop of `sortQueueByPriority`: compute the dynamic priority of
every queued process, in queue order, threading the quantum record through. -/
def calcPriorities (t : ℤ) : List DProc → DQuantum → List ℕ → List DProc × DQuantum
  | ps, dtq, [] => (ps, dtq)
  | ps, dtq, i :: rest =>
      let r := calculateDynamicPriority (dGet ps i) t dtq
      calcPriorities t (ps.set i r.1) r.2.1 rest

/-- One inner pass of the bubble sort of `sortQueueByPriority`, performing
`m` adjacent comparisons; processes are swapped when the left one has the
strictly smaller `system_priority` (descending sort, stable on ties).
Priorities are looked up through the process list at comparison time,
just as the C code chases the stored pointers. -/
def bubblePass (ps : List DProc) : List ℕ → ℕ → List ℕ
  | a :: b :: rest, m + 1 =>
      if (dGet ps a).sysPriority < (dGet ps b).sysPriority then
        b :: bubblePass ps (a :: rest) m
      else
        a :: bubblePass ps (b :: rest) m
  | q, _ => q

/-- The outer loop of the bubble sort: pass `i` performs `size - i - 1`
comparisons, exactly as the C loop bounds `i < size-1`, `j < size-i-1`. -/
def bubblePasses (ps : List DProc) : List ℕ → ℕ → List ℕ
  | q, 0 => q
  | q, k + 1 => bubblePasses ps (bubblePass ps q (k + 1)) k

/-- The bubble sort of `sortQueueByPriority` (lines 222-239). -/
def bubbleQ (ps : List DProc) (q : List ℕ) : List ℕ :=
  bubblePasses ps q (q.length - 1)

/-- `sortQueueByPriority` of `DPS-DTQ.c` (lines 213-239): recompute all
priorities, then bubble-sort the queue by the (freshly overwritten)
`system_priority` fields, descending. -/
def sortQueueByPriority (ps : List DProc) (q : List ℕ) (t : ℤ) (dtq : DQuantum) :
    List DProc × List ℕ × DQuantum :=
  let r := calcPriorities t ps dtq q
  (r.1, bubbleQ r.1 q, r.2)

/-- `addToGanttChart` (identical in `CFS.c` and `DPS-DTQ.c`): entries are
`(process_id, start_time, end_time)`, `-1` marking idle; the chart silently
drops entries beyond `MAX_GANTT_CHART_SIZE = 1000`. -/
def addToGanttChart (g : List (ℤ × ℤ × ℤ)) (e : ℤ × ℤ × ℤ) : List (ℤ × ℤ × ℤ) :=
  if g.length < 1000 then g ++ [e] else g

/-- The in-place update `gantt_chart[gantt_chart_size - 1].end_time = t` used
to merge consecutive idle units. -/
def ganttUpdateLastEnd (g : List (ℤ × ℤ × ℤ)) (t : ℤ) : List (ℤ × ℤ × ℤ) :=
  match g.getLast? with
  | none => g
  | some e => g.dropLast ++ [(e.1, e.2.1, t)]

/-! ## The event loop of `runDPS_DTQ` -/

/-- The full state of one `runDPS_DTQ` simulation. -/
structure DState where
  procs : List DProc
  n : ℕ
  queue : List ℕ
  time : ℤ
  completedCount : ℕ
  idleTime : ℕ
  gantt : List (ℤ × ℤ × ℤ)
  dtq : DQuantum
deriving Inhabited, DecidableEq

/-- The top-of-loop arrival scan of `runDPS_DTQ` (lines 365-372): every
process with `arrival_time == current_time` is enqueued, with no check
whether it is already queued, executed or completed. -/
def dpsArrivalScan (s : DState) : DState :=
  let arrivals := (List.range s.n).filter (fun i => (dGet s.procs i).arrival = s.time)
  { s with queue := arrivals.foldl dEnqueue s.queue }

/-- The idle branch of `runDPS_DTQ` (lines 375-390): advance time by one and
extend (or open) an idle Gantt entry. -/
def dpsIdle (s : DState) : DState :=
  let t' := s.time + 1
  let it := s.idleTime + 1
  let g := if it = 1 then addToGanttChart s.gantt (-1, t' - 1, t')
           else ganttUpdateLastEnd s.gantt t'
  { s with time := t', idleTime := it, gantt := g }

/-- The end-of-slice arrival scan of `runDPS_DTQ` (lines 444-453): processes
that arrived strictly within the elapsed slice are enqueued, guarded only by
`!executed`. -/
def dpsLateScan (s : DState) (execT : ℤ) : DState :=
  let lateArrivals := (List.range s.n).filter (fun i =>
    let p := dGet s.procs i
    ¬p.executed ∧ p.arrival > s.time - execT ∧ p.arrival ≤ s.time)
  { s with queue := lateArrivals.foldl dEnqueue s.queue }

/-- The dispatch branch of `runDPS_DTQ` (lines 396-453): set the load factor,
sort the queue, dequeue the head, recompute its priority and quantum, run it
for `min(quantum, remaining)`, record the Gantt entry, then either retire it
or re-enqueue it, and finally perform the end-of-slice arrival scan. -/
def dpsDispatch (s : DState) : DState :=
  let dtq0 := { s.dtq with loadFactor := (s.queue.length : ℚ) / (s.n : ℚ) }
  let r0 := sortQueueByPriority s.procs s.queue s.time dtq0
  let ps1 := r0.1
  let dtq1 := r0.2.2
  match r0.2.1 with
  | [] => s
  | ci :: qrest =>
    let p := dGet ps1 ci
    let p1 := if p.executed then p else { p with firstExec := s.time, executed := true }
    let r := calculateDynamicPriority p1 s.time dtq1
    let p2 := r.1
    let dtq2 := r.2.1
    let tq0 := cIntCast dtq2.current
    let tq := if tq0 < 1 then 1 else tq0
    let execT := if p2.remaining < tq then p2.remaining else tq
    let g := addToGanttChart s.gantt (p2.id, s.time, s.time + execT)
    let p3 := { p2 with remaining := p2.remaining - execT }
    let t' := s.time + execT
    if p3.remaining = 0 then
      let p4 := { p3 with
        completed := true
        completionTime := t'
        turnaround := t' - p3.arrival
        waiting := t' - p3.arrival - p3.burst
        response := p3.firstExec - p3.arrival }
      dpsLateScan { s with
        procs := ps1.set ci p4
        queue := qrest
        time := t'
        gantt := g
        dtq := dtq2
        completedCount := s.completedCount + 1 } execT
    else
      dpsLateScan { s with
        procs := ps1.set ci p3
        queue := dEnqueue qrest ci
        time := t'
        gantt := g
        dtq := dtq2 } execT

/-- One iteration of the `while (completed_processes < n)` loop of
`runDPS_DTQ`. -/
def dpsIter (s : DState) : DState :=
  let s1 := dpsArrivalScan s
  if s1.queue = [] then dpsIdle s1 else dpsDispatch { s1 with idleTime := 0 }

/-- The `runDPS_DTQ` loop, fuelled: iterate while `completed_processes < n`.
Once the guard fails the state is returned unchanged, so a run that has
terminated is a fixed point. -/
def runDPS_DTQ : DState → ℕ → DState
  | s, 0 => s
  | s, f + 1 => if s.completedCount < s.n then runDPS_DTQ (dpsIter s) f else s

/-- A process record as `readProcessesFromFile` of `DPS-DTQ.c` initialises it
from the seven input fields. -/
def mkDProc (idv a b dl cr pe sp : ℤ) : DProc :=
  { id := idv, arrival := a, burst := b, remaining := b, completionTime := 0,
    waiting := 0, turnaround := 0, response := 0, firstExec := -1,
    deadline := dl, crit := cr, period := pe, sysPriority := sp,
    executed := false, completed := false }

/-- The quantum parameters initialised in `main` of `DPS-DTQ.c`. -/
def dtqInit : DQuantum :=
  { base := 4, current := 4, loadFactor := 0, critWeight := 7/20,
    deadlineWeight := 3/10, agingWeight := 1/4, priorityWeight := 1/10 }

/-- The initial simulation state of `runDPS_DTQ`. -/
def dpsInit (ps : List DProc) : DState :=
  { procs := ps, n := ps.length, queue := [], time := 0, completedCount := 0,
    idleTime := 0, gantt := [], dtq := dtqInit }

/-- Sum of the executed (non-idle) Gantt slice lengths. -/
def ganttBusySum (g : List (ℤ × ℤ × ℤ)) : ℤ :=
  ((g.filter (fun e => e.1 ≠ -1)).map (fun e => e.2.2 - e.2.1)).sum

/-- Sum of the burst times of a `DPS-DTQ.c` process set. -/
def burstSumD (ps : List DProc) : ℤ := (ps.map (·.burst)).sum

/-! ## Concrete inputs for the DPS-DTQ claims -/

/-- Input exhibiting the double-enqueue/premature-exit defect: process 2
arrives exactly when process 1's first slice ends; process 3 is a long,
low-priority job that never gets to run. -/
def inputC1 : List DProc :=
  [mkDProc 1 0 2 0 1 0 0, mkDProc 2 2 1 0 10 0 9, mkDProc 3 2 10 0 1 0 0]

/-- Two-process input exhibiting the duplicate enqueue at the instant a
slice ends. -/
def inputC2 : List DProc :=
  [mkDProc 1 0 2 0 1 0 0, mkDProc 2 2 1 0 10 0 9]

/-- Single-process input for the priority-formula claim. -/
def inputC6 : List DProc := [mkDProc 1 0 2 0 1 0 0]

/-! ## The process record and tree of `CFS.c` -/

/-- The `Process` struct of `CFS.c`. -/
structure CProc where
  id : ℤ
  arrival : ℤ
  burst : ℤ
  remaining : ℤ
  completionTime : ℤ
  waiting : ℤ
  turnaround : ℤ
  response : ℤ
  firstExec : ℤ
  deadline : ℤ
  crit : ℤ
  period : ℤ
  nice : ℤ
  vruntime : ℚ
  weight : ℚ
  executed : Bool
  completed : Bool
deriving Inhabited, DecidableEq

/-- Look a process up by index (a C pointer dereference). -/
def cGet (ps : List CProc) (i : ℕ) : CProc := ps.getD i default

/-- The vruntime key of the process stored at index `i` — always the
*current* value, since tree nodes store pointers. -/
def vrOf (ps : List CProc) (i : ℕ) : ℚ := (cGet ps i).vruntime

/-- `calculateWeight` of `CFS.c` (lines 178-189): map criticality to a nice
value clamped to `[-20, 19]`, then `weight = 1024 / (0.8*nice + 1024)`. -/
def calculateWeight (p : CProc) : CProc :=
  let n0 : ℤ := 19 - p.crit * 3
  let n1 : ℤ := if n0 < -20 then -20 else n0
  let n2 : ℤ := if n1 > 19 then 19 else n1
  { p with nice := n2, weight := 1024 / ((4/5 : ℚ) * (n2 : ℚ) + 1024) }

/-- The tree of `CFS.c` (`RBNode`): a plain binary tree whose nodes hold
process indices.  The color field of the source is never used. -/
inductive RBT where
  | leaf
  | node (l : RBT) (i : ℕ) (r : RBT)
deriving Inhabited, DecidableEq

/-- `insert` of `CFS.c` (lines 100-120): strictly lower *current* vruntime
goes left, everything else (ties included) goes right. -/
def insertT (ps : List CProc) : RBT → ℕ → RBT
  | .leaf, i => .node .leaf i .leaf
  | .node l j r, i =>
      if vrOf ps i < vrOf ps j then .node (insertT ps l i) j r
      else .node l j (insertT ps r i)

/-- `extractMinVruntime` of `CFS.c` (lines 135-175): remove and return the
leftmost node, splicing its right child into its parent. -/
def extractMinVruntime : RBT → Option (ℕ × RBT)
  | .leaf => none
  | .node .leaf i r => some (i, r)
  | .node (.node ll j lr) i r =>
      match extractMinVruntime (.node ll j lr) with
      | some (k, l') => some (k, .node l' i r)
      | none => none

/-- In-order traversal of the tree (the order in which repeated
`extractMinVruntime` calls would deliver the nodes). -/
def tList : RBT → List ℕ
  | .leaf => []
  | .node l i r => tList l ++ i :: tList r

/-- The leftmost node of the tree, i.e. the node `extractMinVruntime`
returns. -/
def leftmostT : RBT → Option ℕ
  | .leaf => none
  | .node .leaf i _ => some i
  | .node (.node ll j lr) _ _ => leftmostT (.node ll j lr)

/-- The search-tree invariant of the `CFS.c` tree with respect to the current
vruntimes: left-subtree keys are strictly below the node key, right-subtree
keys are at or above it. -/
def validT (ps : List CProc) : RBT → Prop
  | .leaf => True
  | .node l i r =>
      (∀ j ∈ tList l, vrOf ps j < vrOf ps i) ∧
      (∀ j ∈ tList r, vrOf ps i ≤ vrOf ps j) ∧
      validT ps l ∧ validT ps r

/-- Keep the earlier of two indices unless the later one has a strictly
smaller key — the tie-breaking rule that `insert`/`extractMinVruntime`
actually implement. -/
def pickEarlierMin (ps : List CProc) (a i : ℕ) : ℕ :=
  if vrOf ps i < vrOf ps a then i else a

/-- The index holding the minimal vruntime after folding `pickEarlierMin`
from an initial candidate over a list of indices. -/
def minFirstIdxAux (ps : List CProc) (a : ℕ) (l : List ℕ) : ℕ :=
  l.foldl (pickEarlierMin ps) a

/-- The earliest-inserted index among those with minimal vruntime, when the
whole list is inserted in order. -/
def minFirstIdx (ps : List CProc) : ℕ :=
  minFirstIdxAux ps 0 (List.range ps.length)

/-- The tree obtained by inserting every process of the list, in list order,
into an empty tree. -/
def buildT (ps : List CProc) : RBT :=
  (List.range ps.length).foldl (insertT ps) .leaf

/-! ## The event loop of `runCFS` -/

/-- The full state of one `runCFS` simulation.  `totalWeight` is the `int`
field `cfs->total_weight`, computed once before the loop (the truncation of
the double sum of all `n` weights). -/
structure CState where
  procs : List CProc
  n : ℕ
  tree : RBT
  time : ℤ
  completedCount : ℕ
  idleTime : ℕ
  gantt : List (ℤ × ℤ × ℤ)
  totalWeight : ℤ
  minGranularity : ℚ
  latency : ℚ
deriving Inhabited, DecidableEq

/-- The top-of-loop arrival scan of `runCFS` (lines 326-339): a process with
`arrival_time == current_time` that is not completed is inserted; if it has
never executed its vruntime is first reset to 0.  There is no check whether
it is already in the tree. -/
def cfsTopScan (s : CState) : CState :=
  (List.range s.n).foldl (fun st i =>
    let p := cGet st.procs i
    if p.arrival = st.time ∧ ¬p.completed then
      let st' := if ¬p.executed then
          { st with procs := st.procs.set i { p with vruntime := 0 } }
        else st
      { st' with tree := insertT st'.procs st'.tree i }
    else st) s

/-- The idle branch of `runCFS` (lines 342-355). -/
def cfsIdle (s : CState) : CState :=
  let t' := s.time + 1
  let it := s.idleTime + 1
  let g := if it = 1 then addToGanttChart s.gantt (-1, t' - 1, t')
           else ganttUpdateLastEnd s.gantt t'
  { s with time := t', idleTime := it, gantt := g }

/-- The end-of-slice arrival scan of `runCFS` (lines 412-425): processes that
arrived strictly within the elapsed slice are given vruntime 0 and
inserted. -/
def cfsLateScan (s : CState) (execT : ℤ) : CState :=
  (List.range s.n).foldl (fun st i =>
    let p := cGet st.procs i
    if ¬p.executed ∧ ¬p.completed ∧
        p.arrival > st.time - execT ∧ p.arrival ≤ st.time then
      let ps' := st.procs.set i { p with vruntime := 0 }
      { st with procs := ps', tree := insertT ps' st.tree i }
    else st) s

/-- The dispatch branch of `runCFS` (lines 361-425): extract the minimum
vruntime process, compute the timeslice from the *static* total weight,
run for `(int)fmin(timeslice, remaining)`, record the Gantt entry, update
vruntime, then either retire or re-insert, and perform the end-of-slice
arrival scan. -/
def cfsDispatch (s : CState) : CState :=
  match extractMinVruntime s.tree with
  | none => s
  | some (ci, tree1) =>
    let p := cGet s.procs ci
    let activeProcesses : ℚ := (((s.n : ℤ) - (s.completedCount : ℤ) : ℤ) : ℚ)
    let targetLatency : ℚ := max (s.minGranularity * activeProcesses) s.latency
    let ts0 : ℚ := (p.weight / (s.totalWeight : ℚ)) * targetLatency
    let timeslice : ℚ := if ts0 < 1 then 1 else ts0
    let execT : ℤ := cIntCast (min timeslice (p.remaining : ℚ))
    let p1 := if p.executed then p else { p with firstExec := s.time, executed := true }
    let g := addToGanttChart s.gantt (p1.id, s.time, s.time + execT)
    let p2 := { p1 with
      remaining := p1.remaining - execT
      vruntime := p1.vruntime + (execT : ℚ) / p1.weight }
    let t' := s.time + execT
    if p2.remaining ≤ 0 then
      let p3 := { p2 with
        completed := true
        completionTime := t'
        turnaround := t' - p2.arrival
        waiting := t' - p2.arrival - p2.burst
        response := p2.firstExec - p2.arrival }
      cfsLateScan { s with
        procs := s.procs.set ci p3
        tree := tree1
        time := t'
        gantt := g
        completedCount := s.completedCount + 1 } execT
    else
      let ps2 := s.procs.set ci p2
      cfsLateScan { s with
        procs := ps2
        tree := insertT ps2 tree1 ci
        time := t'
        gantt := g } execT

/-- One iteration of the `while (completed_processes < n)` loop of
`runCFS`. -/
def cfsIter (s : CState) : CState :=
  let s1 := cfsTopScan s
  if s1.tree = .leaf then cfsIdle s1 else cfsDispatch { s1 with idleTime := 0 }

/-- The `runCFS` loop, fuelled: iterate while `completed_processes < n`. -/
def runCFS : CState → ℕ → CState
  | s, 0 => s
  | s, f + 1 => if s.completedCount < s.n then runCFS (cfsIter s) f else s

/-- A process record as `readProcessesFromFile` of `CFS.c` initialises it
(including the weight computation, which overwrites the nice value read from
the file). -/
def mkCProc (idv a b dl cr pe ni : ℤ) : CProc :=
  calculateWeight
    { id := idv, arrival := a, burst := b, remaining := b, completionTime := 0,
      waiting := 0, turnaround := 0, response := 0, firstExec := -1,
      deadline := dl, crit := cr, period := pe, nice := ni, vruntime := 0,
      weight := 0, executed := false, completed := false }

/-- The initial simulation state of `runCFS`, with the parameters set in
`main` of `CFS.c` (`min_granularity = 1`, `latency = 20`) and the total
weight computed once over all `n` processes and truncated into the `int`
field. -/
def cfsInit (ps : List CProc) : CState :=
  { procs := ps, n := ps.length, tree := .leaf, time := 0, completedCount := 0,
    idleTime := 0, gantt := [], minGranularity := 1, latency := 20,
    totalWeight := cIntCast ((ps.map (·.weight)).sum) }

/-- Sum of the remaining burst times of a `CFS.c` process set. -/
def sumRemainingC (ps : List CProc) : ℤ := (ps.map (·.remaining)).sum

/-! ## The metrics calculation shared by `CFS.c` and `DPS-DTQ.c` -/

/-- The load-balancing-efficiency computation of `calculateMetrics`
(`CFS.c` lines 474-486, identically `DPS-DTQ.c` lines 503-517):
`1 / (1 + stddev(waiting)/mean(waiting))` with **no** special case for a
zero mean.  The square root of the variance is irrational in general, so the
definition is parametric in the square-root function; the division
`std_dev / mean_waiting` is the C double division, modelled by `cdiv`
(undefined on a zero denominator, where C produces NaN). -/
def loadBalancingEfficiencyOf (sqrtFn : ℚ → ℚ) (ps : List CProc) : Option ℚ :=
  let nQ : ℚ := (ps.length : ℚ)
  let totalWaiting : ℚ := (ps.map (fun p => ((p.waiting : ℤ) : ℚ))).sum
  let meanWaiting : ℚ := totalWaiting / nQ
  let variance : ℚ :=
    (ps.map (fun p => (((p.waiting : ℤ) : ℚ) - meanWaiting) *
      (((p.waiting : ℤ) : ℚ) - meanWaiting))).sum
  let stdDev : ℚ := sqrtFn (variance / nQ)
  (cdiv stdDev meanWaiting).map (fun cov => 1 / (1 + cov))

/-! ## Concrete inputs for the CFS claims -/

/-- Input exhibiting the stale-duplicate dispatch in `runCFS`: processes 2
and 3 arrive exactly when process 1's slice ends, so both scans insert them;
process 3 is long enough to be preempted, after which the stale duplicate of
process 2 is extracted with remaining 0. -/
def inputC3 : List CProc :=
  [mkCProc 1 0 2 20 7 0 5, mkCProc 2 2 1 20 7 0 5, mkCProc 3 2 8 20 7 0 5]

/-- Input for the static-total-weight claim: process 2 arrives only at time
5, yet its weight is already in the denominator of process 1's first
timeslice. -/
def inputC5 : List CProc :=
  [mkCProc 1 0 20 0 7 0 0, mkCProc 2 5 4 0 7 0 0]

/-- Single-process input whose waiting time is 0, for the
division-by-zero-mean claim. -/
def inputC9 : List CProc := [mkCProc 1 0 1 20 7 0 5]

/-- Two processes with equal vruntime where the earlier-inserted one has the
larger id: the tree extracts the earlier-inserted one, not the lower id. -/
def mkCP (idv : ℤ) (vr : ℚ) : CProc :=
  { id := idv, arrival := 0, burst := 1, remaining := 1, completionTime := 0,
    waiting := 0, turnaround := 0, response := 0, firstExec := -1,
    deadline := 0, crit := 5, period := 0, nice := 0, vruntime := vr,
    weight := 1, executed := false, completed := false }

/-- Two equal-key processes, ids 5 then 2, in insertion order. -/
def psC4 : List CProc := [mkCP 5 0, mkCP 2 0]

/-! ## The process record and ready queue of `reference-paper-algo.c` -/

/-- The `Process` struct of `reference-paper-algo.c`. -/
structure RProc where
  pid : ℤ
  arrival : ℤ
  burst : ℤ
  deadline : ℤ
  crit : ℤ
  period : ℤ
  nice : ℤ
  remaining : ℤ
  startT : ℤ
  completionTime : ℤ
  completed : Bool
  inReadyQueue : Bool
deriving Inhabited, DecidableEq

/-- Look a process up by index in the original array. -/
def rGet (ps : List RProc) (i : ℕ) : RProc := ps.getD i default

/-- `mean` of `reference-paper-algo.c` (lines 118-126). -/
def rMean (l : List ℤ) : ℚ := ((l.sum : ℤ) : ℚ) / (l.length : ℚ)

/-- One sorted insertion used to model the ascending sort inside `median`. -/
def zInsertSorted (x : ℤ) : List ℤ → List ℤ
  | [] => [x]
  | y :: l => if x < y then x :: y :: l else y :: zInsertSorted x l

/-- The ascending sort of the temporary array inside `median` (the source
uses a quadratic selection-style sort; only the sorted result matters). -/
def zSort (l : List ℤ) : List ℤ := l.foldr zInsertSorted []

/-- `median` of `reference-paper-algo.c` (lines 80-115): sort ascending, then
average the two middle elements for even length (float division by 2.0),
or take the middle element for odd length. -/
def rMedian (l : List ℤ) : ℚ :=
  let t := zSort l
  let n := l.length
  if n % 2 = 0 then (((t.getD (n / 2) 0) : ℚ) + ((t.getD (n / 2 - 1) 0) : ℚ)) / 2
  else ((t.getD (n / 2) 0) : ℚ)

/-- One sorted insertion of a queue entry by remaining time. -/
def rInsertSorted (p : RProc) : List RProc → List RProc
  | [] => [p]
  | q :: l => if p.remaining < q.remaining then p :: q :: l else q :: rInsertSorted p l

/-- The `qsort(..., compareRemainingTime)` call of the source, which orders
the ready queue by ascending `remaining_time`.  C's `qsort` leaves the
relative order of equal keys unspecified; this model realises it as an
insertion sort (on the inputs evaluated below all keys are distinct, so the
result is the unique sorted permutation). -/
def rSortQ (l : List RProc) : List RProc := l.foldr rInsertSorted []

/-- The full state of one `reference-paper-algo.c` simulation.  The ready
queue stores *copies* of the process records, exactly as the C queue does;
`quantums` is a ghost trace recording the time quantum computed at each
scheduling decision (a local variable in the source). -/
structure RState where
  procs : List RProc
  n : ℕ
  queue : List RProc
  time : ℤ
  completedCount : ℕ
  quantums : List ℤ
deriving Inhabited, DecidableEq

/-- Step 1 of the simulation loop (lines 239-252): copy every arrived,
unqueued, uncompleted process into the ready queue (capacity `n`, silently
full beyond that) and mark it queued in the original array.  The copy is
taken before the flag is set, as in the source. -/
def rArrive (s : RState) : RState :=
  (List.range s.n).foldl (fun st i =>
    let p := rGet st.procs i
    if p.arrival ≤ st.time ∧ ¬p.inReadyQueue ∧ ¬p.completed then
      { st with
        queue := if st.queue.length < st.n then st.queue ++ [p] else st.queue
        procs := st.procs.set i { p with inReadyQueue := true } }
    else st) s

/-- Steps 2-3 of the simulation loop of `reference-paper-algo.c`
(lines 254-327): if the ready queue is nonempty, sort it by remaining time,
compute the shared quantum `(int)((mean + median)/2)` (floored at 1) from the
ready remaining times, dispatch the head for `min(quantum, remaining)`,
and either retire it or put the updated copy back; otherwise idle one unit. -/
def rIter (s : RState) : RState :=
  let s1 := rArrive s
  if 0 < s1.queue.length then
    let qs := rSortQ s1.queue
    let btList := qs.map (·.remaining)
    let meanBt := rMean btList
    let medianBt := rMedian btList
    let tq0 := cIntCast ((meanBt + medianBt) / 2)
    let tq := if tq0 < 1 then 1 else tq0
    match qs with
    | [] => s1
    | cur :: qrest =>
      match (List.range s1.n).find? (fun i => (rGet s1.procs i).pid = cur.pid) with
      | none => { s1 with queue := qrest, quantums := s1.quantums ++ [tq] }
      | some idx =>
        let pI := rGet s1.procs idx
        let pS := if pI.startT = -1 then { pI with startT := s1.time } else pI
        if cur.remaining ≤ tq then
          let t' := s1.time + cur.remaining
          let pC := { pS with
            remaining := 0
            completed := true
            completionTime := t'
            inReadyQueue := false }
          { s1 with
            procs := s1.procs.set idx pC
            queue := qrest
            time := t'
            completedCount := s1.completedCount + 1
            quantums := s1.quantums ++ [tq] }
        else
          let t' := s1.time + tq
          let pP := { pS with remaining := pS.remaining - tq, inReadyQueue := false }
          let pP2 := { pP with inReadyQueue := true }
          { s1 with
            procs := s1.procs.set idx pP2
            queue := if qrest.length < s1.n then qrest ++ [pP] else qrest
            time := t'
            quantums := s1.quantums ++ [tq] }
  else { s1 with time := s1.time + 1 }

/-- The simulation loop of `reference-paper-algo.c`, fuelled. -/
def rRun : RState → ℕ → RState
  | s, 0 => s
  | s, f + 1 => if s.completedCount < s.n then rRun (rIter s) f else s

/-- A process record as `main` of `reference-paper-algo.c` initialises it. -/
def mkRProc (idv a b dl cr pe ni : ℤ) : RProc :=
  { pid := idv, arrival := a, burst := b, deadline := dl, crit := cr,
    period := pe, nice := ni, remaining := b, startT := -1,
    completionTime := 0, completed := false, inReadyQueue := false }

/-- The initial simulation state of `reference-paper-algo.c`. -/
def rInit (ps : List RProc) : RState :=
  { procs := ps, n := ps.length, queue := [], time := 0, completedCount := 0,
    quantums := [] }

/-- Ready remaining times `[1, 2]` make `(mean+median)/2 = 3/2`: the C cast
truncates it to 1 where rounding would give 2. -/
def inputC7 : List RProc := [mkRProc 1 0 1 0 5 0 0, mkRProc 2 0 2 0 5 0 0]

/-! ## Definitions taken from the specification text, for comparison -/

/-- The shared quantum exactly as the specification words it:
`max(1, round((mean + median)/2))` over the ready remaining times. -/
def specRefQuantum (l : List ℤ) : ℤ :=
  max 1 (round ((rMean l + rMedian l) / 2))

/-- The quantum actually computed by the model at a scheduling decision:
`(int)((mean+median)/2)` floored at 1, over the sorted ready queue. -/
def refSharedQuantum (q : List RProc) : ℤ :=
  max 1 (cIntCast ((rMean ((rSortQ q).map (·.remaining)) +
    rMedian ((rSortQ q).map (·.remaining))) / 2))

/-- The dynamic priority exactly as the specification words it: the weighted
sum of the four normalised components, with the manual component taken from
the process's (original) `base_priority` field. -/
def specDynamicPriority (p : DProc) (t : ℤ) : ℚ :=
  let waitingTime : ℤ := t - p.arrival - (p.burst - p.remaining)
  (7/20) * ((p.crit : ℚ) / 10) +
  (3/10) * (if p.deadline > 0 then
      (if p.deadline - t ≤ 0 then 1 else 1 / (1 + ((p.deadline - t : ℤ) : ℚ)))
    else 0) +
  (1/4) * (min 1 (if waitingTime > 0 then (waitingTime : ℚ) / 10 else 0)) +
  (1/10) * ((p.sysPriority : ℚ) / 10)

/-- The weighted-fair slice exactly as the specification words it: total
weight and target latency computed over exactly the processes that are
arrived and unfinished at the dispatch instant. -/
def specActiveSlice (p : CProc) (ps : List CProc) (t : ℤ)
    (minGran latency : ℚ) : ℚ :=
  let active := ps.filter (fun q => q.arrival ≤ t ∧ ¬q.completed)
  let tw : ℚ := (active.map (·.weight)).sum
  let target : ℚ := max (minGran * (active.length : ℚ)) latency
  min (max 1 ((p.weight / tw) * target)) ((p.remaining : ℤ) : ℚ)

/-- Witness input for the tie-breaking theorem: three processes, the minimal
vruntime 0 first held by the id-4 process (inserted second). -/
def psW4 : List CProc := [mkCP 9 1, mkCP 4 0, mkCP 7 0]

/-- Keep the earlier queue entry unless the later one has strictly greater
`system_priority` — the tie-breaking rule the DPS bubble sort implements
(it swaps only on strict inequality). -/
def pickTop (ps : List DProc) (a b : ℕ) : ℕ :=
  if (dGet ps a).sysPriority < (dGet ps b).sysPriority then b else a

/-- The earliest-queued index among those with maximal `system_priority`:
the entry `sortQueueByPriority` leaves at the front of the queue, i.e. the
one the subsequent `dequeue` returns. -/
def firstTopIdx (ps : List DProc) : List ℕ → ℕ
  | [] => 0
  | [i] => i
  | i :: j :: rest => pickTop ps i (firstTopIdx ps (j :: rest))

/-- Witness queue for the DPS tie-break theorem: indices 0 and 1 share the
maximal priority, index 0 queued first (after the low-priority index 2). -/
def dpsW4 : List DProc := [mkDProc 1 0 1 0 1 0 7, mkDProc 2 0 1 0 1 0 7,
  mkDProc 3 0 1 0 1 0 3]

/-- The witness queue order: the low-priority process first, then the two
tied top-priority processes. -/
def qW4 : List ℕ := [2, 0, 1]

/-- The structural invariant of every tree reachable in `runCFS`: a node
with a nonempty left subtree has strictly positive current vruntime.  (A
node enters a left subtree only under a then-strictly-greater key, keys are
never negative, and keys never decrease — they grow by `executed/weight` on
dispatch and are only reset to 0 on processes whose vruntime is already 0 —
so the parent's key was, and stays, positive.  Unlike a full search-tree
invariant this survives the stale-duplicate corruption exhibited in the
defect claims.) -/
def leftOk (ps : List CProc) : RBT → Prop
  | .leaf => True
  | .node l v r => (l = .leaf ∨ 0 < vrOf ps v) ∧ leftOk ps l ∧ leftOk ps r

/-- The per-process invariant of every state reachable in `runCFS` from a
validly initialised process set: vruntime and remaining burst are
nonnegative, the weight is positive, and a never-executed process still has
vruntime 0. -/
def cfsProcsOk (ps : List CProc) : Prop :=
  ∀ p ∈ ps, 0 ≤ p.vruntime ∧ 0 ≤ p.remaining ∧ 0 < p.weight ∧
    (p.executed = false → p.vruntime = 0)

/-- The reachable-state invariant of `runCFS`. -/
def cfsInv (s : CState) : Prop := cfsProcsOk s.procs ∧ leftOk s.procs s.tree

/-- Witness input for the arrival-ordering claim: the three processes of
the stale-duplicate scenario plus a fourth that arrives only at time 20, so
that after three loop iterations process 3 is a positive-vruntime incumbent
while process 4 has never executed. -/
def inputW10 : List CProc :=
  [mkCProc 1 0 2 20 7 0 5, mkCProc 2 2 1 20 7 0 5, mkCProc 3 2 8 20 7 0 5,
   mkCProc 4 20 1 20 7 0 5]

/-! # Theorems

`Rat.add`, `Rat.mul`, `Rat.inv` and `Rat.sub` are irreducible by default,
which blocks `decide` from evaluating the simulators on concrete inputs;
they are made semireducible for the evaluation theorems below. -/

unseal Rat.add Rat.mul Rat.inv Rat.sub

/-! ## Lemmas about the `CFS.c` tree -/

theorem insertT_leaf (ps : List CProc) (i : ℕ) :
    insertT ps .leaf i = .node .leaf i .leaf := rfl

theorem insertT_node (ps : List CProc) (l : RBT) (v : ℕ) (r : RBT) (i : ℕ) :
    insertT ps (.node l v r) i =
      if vrOf ps i < vrOf ps v then .node (insertT ps l i) v r
      else .node l v (insertT ps r i) := rfl

theorem mem_tList_insertT {ps : List CProc} {t : RBT} {i j : ℕ} :
    j ∈ tList (insertT ps t i) ↔ j = i ∨ j ∈ tList t := by
  induction t with
  | leaf => simp [insertT, tList]
  | node l v r ihl ihr =>
      simp only [insertT]
      split
      · simp only [tList, List.mem_append, List.mem_cons, ihl]
        tauto
      · simp only [tList, List.mem_append, List.mem_cons, ihr]
        tauto

theorem validT_insertT {ps : List CProc} {t : RBT} (i : ℕ) (hv : validT ps t) :
    validT ps (insertT ps t i) := by
  induction t with
  | leaf => simp [insertT, validT, tList]
  | node l v r ihl ihr =>
      obtain ⟨hl, hr, hvl, hvr⟩ := hv
      simp only [insertT]
      split
      · rename_i h
        refine ⟨?_, hr, ihl hvl, hvr⟩
        intro j hj
        rcases mem_tList_insertT.mp hj with rfl | hj'
        · exact h
        · exact hl j hj'
      · rename_i h
        refine ⟨hl, ?_, hvl, ihr hvr⟩
        intro j hj
        rcases mem_tList_insertT.mp hj with rfl | hj'
        · exact not_lt.mp h
        · exact hr j hj'

theorem insertT_ne_leaf (ps : List CProc) (t : RBT) (i : ℕ) :
    insertT ps t i ≠ .leaf := by
  cases t with
  | leaf => simp [insertT]
  | node l v r => simp only [insertT]; split <;> simp

theorem leftmostT_node_ne_leaf {l : RBT} (v : ℕ) (r : RBT) (h : l ≠ .leaf) :
    leftmostT (.node l v r) = leftmostT l := by
  cases l with
  | leaf => exact absurd rfl h
  | node a j b => rfl

theorem leftmostT_mem {t : RBT} {j : ℕ} (h : leftmostT t = some j) :
    j ∈ tList t := by
  induction t with
  | leaf => simp [leftmostT] at h
  | node l v r ihl ihr =>
      cases l with
      | leaf =>
          simp only [leftmostT, Option.some.injEq] at h
          simp [tList, h]
      | node a b c =>
          rw [leftmostT_node_ne_leaf _ _ (by simp)] at h
          exact List.mem_append.mpr (Or.inl (ihl h))

theorem leftmostT_insertT {ps : List CProc} {t : RBT} {a : ℕ} (i : ℕ)
    (hv : validT ps t) (h : leftmostT t = some a) :
    leftmostT (insertT ps t i) = some (pickEarlierMin ps a i) := by
  induction t generalizing a with
  | leaf => simp [leftmostT] at h
  | node l v r ihl ihr =>
      obtain ⟨hl, hr, hvl, hvr⟩ := hv
      cases l with
      | leaf =>
          simp only [leftmostT, Option.some.injEq] at h
          subst h
          rw [insertT_node]
          split
          · rename_i hlt
            rw [insertT_leaf]
            simp [leftmostT, pickEarlierMin, hlt]
          · rename_i hge
            simp [leftmostT, pickEarlierMin, hge]
      | node la lv lr =>
          rw [leftmostT_node_ne_leaf _ _ (by simp)] at h
          rw [insertT_node]
          split
          · rename_i hlt
            rw [leftmostT_node_ne_leaf _ _ (insertT_ne_leaf ps _ i)]
            exact ihl hvl h
          · rename_i hge
            rw [leftmostT_node_ne_leaf _ _ (by simp), h]
            have hav : vrOf ps a < vrOf ps v := hl a (leftmostT_mem h)
            have hia : ¬ vrOf ps i < vrOf ps a :=
              not_lt.mpr (le_of_lt (lt_of_lt_of_le hav (not_lt.mp hge)))
            simp [pickEarlierMin, hia]

theorem leftmostT_foldl_insertT (ps : List CProc) (idxs : List ℕ) :
    ∀ (t : RBT) (a : ℕ), validT ps t → leftmostT t = some a →
      validT ps (idxs.foldl (insertT ps) t) ∧
      leftmostT (idxs.foldl (insertT ps) t) = some (minFirstIdxAux ps a idxs) := by
  induction idxs with
  | nil =>
      intro t a hv h
      exact ⟨hv, by simpa [minFirstIdxAux] using h⟩
  | cons i rest ih =>
      intro t a hv h
      have hv' := validT_insertT i hv
      have h' := leftmostT_insertT i hv h
      have := ih (insertT ps t i) (pickEarlierMin ps a i) hv' h'
      simpa [minFirstIdxAux, List.foldl_cons] using this

theorem extractMinVruntime_eq_leftmostT (t : RBT) :
    (extractMinVruntime t).map Prod.fst = leftmostT t := by
  induction t with
  | leaf => rfl
  | node l v r ihl ihr =>
      cases l with
      | leaf => rfl
      | node la lv lr =>
          rw [leftmostT_node_ne_leaf _ _ (by simp), ← ihl]
          cases hx : extractMinVruntime (RBT.node la lv lr) with
          | none => simp [extractMinVruntime, hx]
          | some p =>
              obtain ⟨k, l'⟩ := p
              simp [extractMinVruntime, hx]

theorem vrOf_minFirstIdxAux_le (ps : List CProc) (l : List ℕ) :
    ∀ a : ℕ, vrOf ps (minFirstIdxAux ps a l) ≤ vrOf ps a ∧
      ∀ j ∈ l, vrOf ps (minFirstIdxAux ps a l) ≤ vrOf ps j := by
  induction l with
  | nil =>
      intro a
      exact ⟨le_refl _, by simp⟩
  | cons i rest ih =>
      intro a
      simp only [minFirstIdxAux, List.foldl_cons] at *
      have h1 := ih (pickEarlierMin ps a i)
      have hpa : vrOf ps (pickEarlierMin ps a i) ≤ vrOf ps a := by
        unfold pickEarlierMin
        split
        · rename_i h
          exact le_of_lt h
        · exact le_refl _
      have hpi : vrOf ps (pickEarlierMin ps a i) ≤ vrOf ps i := by
        unfold pickEarlierMin
        split
        · exact le_refl _
        · rename_i h
          exact not_lt.mp h
      refine ⟨le_trans h1.1 hpa, ?_⟩
      intro j hj
      rcases List.mem_cons.mp hj with rfl | hj'
      · exact le_trans h1.1 hpi
      · exact h1.2 j hj'

/-! ## Lemmas about the ready-queue sort of `reference-paper-algo.c` -/

theorem mem_rInsertSorted {p x : RProc} {l : List RProc} :
    x ∈ rInsertSorted p l ↔ x = p ∨ x ∈ l := by
  induction l with
  | nil => simp [rInsertSorted]
  | cons q rest ih =>
      simp only [rInsertSorted]
      split
      · simp
      · simp only [List.mem_cons, ih]
        tauto

theorem mem_rSortQ {x : RProc} {l : List RProc} : x ∈ rSortQ l ↔ x ∈ l := by
  induction l with
  | nil => simp [rSortQ]
  | cons q rest ih =>
      show x ∈ rInsertSorted q (rSortQ rest) ↔ _
      rw [mem_rInsertSorted, ih]
      simp

theorem pairwise_rInsertSorted {p : RProc} {l : List RProc}
    (h : List.Pairwise (fun a b => a.remaining ≤ b.remaining) l) :
    List.Pairwise (fun a b => a.remaining ≤ b.remaining) (rInsertSorted p l) := by
  induction l with
  | nil => simp [rInsertSorted]
  | cons q rest ih =>
      rw [List.pairwise_cons] at h
      simp only [rInsertSorted]
      split
      · rename_i hlt
        rw [List.pairwise_cons]
        refine ⟨?_, ?_⟩
        · intro b hb
          rcases List.mem_cons.mp hb with rfl | hb'
          · exact le_of_lt hlt
          · exact le_trans (le_of_lt hlt) (h.1 b hb')
        · rw [List.pairwise_cons]
          exact h
      · rename_i hge
        rw [List.pairwise_cons]
        refine ⟨?_, ih h.2⟩
        intro b hb
        rcases mem_rInsertSorted.mp hb with rfl | hb'
        · exact not_lt.mp hge
        · exact h.1 b hb'

theorem pairwise_rSortQ (l : List RProc) :
    List.Pairwise (fun a b => a.remaining ≤ b.remaining) (rSortQ l) := by
  induction l with
  | nil => simp [rSortQ]
  | cons q rest ih => exact pairwise_rInsertSorted ih

theorem rSortQ_ne_nil {l : List RProc} (h : l ≠ []) : rSortQ l ≠ [] := by
  obtain ⟨p, rest, rfl⟩ := List.exists_cons_of_ne_nil h
  intro hc
  have hm : p ∈ rSortQ (p :: rest) := mem_rSortQ.mpr (by simp)
  rw [hc] at hm
  simp at hm

/-! ## Lemmas about the bubble sort of `sortQueueByPriority` -/

theorem bubblePass_nil (ps : List DProc) (m : ℕ) : bubblePass ps [] m = [] := by
  cases m <;> rfl

theorem bubblePass_single (ps : List DProc) (a : ℕ) (m : ℕ) :
    bubblePass ps [a] m = [a] := by
  cases m <;> rfl

theorem bubblePass_zero (ps : List DProc) (q : List ℕ) : bubblePass ps q 0 = q := by
  cases q with
  | nil => rfl
  | cons a t => cases t <;> rfl

theorem bubblePass_cons (ps : List DProc) (a b : ℕ) (rest : List ℕ) (m : ℕ) :
    bubblePass ps (a :: b :: rest) (m + 1) =
      if (dGet ps a).sysPriority < (dGet ps b).sysPriority then
        b :: bubblePass ps (a :: rest) m
      else
        a :: bubblePass ps (b :: rest) m := rfl

theorem bubblePasses_zero (ps : List DProc) (q : List ℕ) :
    bubblePasses ps q 0 = q := rfl

theorem bubblePasses_succ (ps : List DProc) (q : List ℕ) (k : ℕ) :
    bubblePasses ps q (k + 1) = bubblePasses ps (bubblePass ps q (k + 1)) k := rfl

theorem bubblePass_length (ps : List DProc) :
    ∀ (m : ℕ) (q : List ℕ), (bubblePass ps q m).length = q.length := by
  intro m
  induction m with
  | zero => intro q; rw [bubblePass_zero]
  | succ m ih =>
      intro q
      match q with
      | [] => rw [bubblePass_nil]
      | [a] => rw [bubblePass_single]
      | a :: b :: rest =>
          rw [bubblePass_cons]
          split
          · simp [ih (a :: rest)]
          · simp [ih (b :: rest)]

theorem bubblePass_mem (ps : List DProc) :
    ∀ (m : ℕ) (q : List ℕ) (x : ℕ), x ∈ bubblePass ps q m ↔ x ∈ q := by
  intro m
  induction m with
  | zero => intro q x; rw [bubblePass_zero]
  | succ m ih =>
      intro q x
      match q with
      | [] => rw [bubblePass_nil]
      | [a] => rw [bubblePass_single]
      | a :: b :: rest =>
          rw [bubblePass_cons]
          split
          · simp only [List.mem_cons, ih (a :: rest)]
            tauto
          · simp only [List.mem_cons, ih (b :: rest)]

theorem bubblePasses_length (ps : List DProc) :
    ∀ (k : ℕ) (q : List ℕ), (bubblePasses ps q k).length = q.length := by
  intro k
  induction k with
  | zero => intro q; rfl
  | succ k ih =>
      intro q
      rw [bubblePasses_succ, ih, bubblePass_length]

theorem bubblePasses_mem (ps : List DProc) :
    ∀ (k : ℕ) (q : List ℕ) (x : ℕ), x ∈ bubblePasses ps q k ↔ x ∈ q := by
  intro k
  induction k with
  | zero => intro q x; rfl
  | succ k ih =>
      intro q x
      rw [bubblePasses_succ, ih, bubblePass_mem]

theorem firstTopIdx_cons2 (ps : List DProc) (i j : ℕ) (rest : List ℕ) :
    firstTopIdx ps (i :: j :: rest) = pickTop ps i (firstTopIdx ps (j :: rest)) := rfl

theorem firstTopIdx_cons (ps : List DProc) (i : ℕ) {l : List ℕ} (h : l ≠ []) :
    firstTopIdx ps (i :: l) = pickTop ps i (firstTopIdx ps l) := by
  cases l with
  | nil => exact absurd rfl h
  | cons j rest => rfl

theorem firstTopIdx_mem (ps : List DProc) :
    ∀ (l : List ℕ), l ≠ [] → firstTopIdx ps l ∈ l := by
  intro l
  induction l with
  | nil => intro h; exact absurd rfl h
  | cons i rest ih =>
      intro _
      cases rest with
      | nil => simp [firstTopIdx]
      | cons j r =>
          rw [firstTopIdx_cons2]
          unfold pickTop
          split
          · exact List.mem_cons_of_mem _ (ih (by simp))
          · exact List.mem_cons_self _ _

theorem firstTopIdx_max (ps : List DProc) :
    ∀ (l : List ℕ), ∀ x ∈ l,
      (dGet ps x).sysPriority ≤ (dGet ps (firstTopIdx ps l)).sysPriority := by
  intro l
  induction l with
  | nil => intro x hx; simp at hx
  | cons i rest ih =>
      intro x hx
      cases rest with
      | nil =>
          rcases List.mem_cons.mp hx with rfl | hx'
          · simp [firstTopIdx]
          · simp at hx'
      | cons j r =>
          rw [firstTopIdx_cons2]
          unfold pickTop
          split
          · rename_i hlt
            rcases List.mem_cons.mp hx with rfl | hx'
            · exact le_of_lt hlt
            · exact ih x hx'
          · rename_i hge
            rcases List.mem_cons.mp hx with rfl | hx'
            · exact le_refl _
            · exact le_trans (ih x hx') (not_lt.mp hge)

theorem firstTopIdx_head_max (ps : List DProc) (h : ℕ) (tl : List ℕ)
    (hmax : ∀ x ∈ h :: tl, (dGet ps x).sysPriority ≤ (dGet ps h).sysPriority) :
    firstTopIdx ps (h :: tl) = h := by
  cases tl with
  | nil => rfl
  | cons j rest =>
      rw [firstTopIdx_cons2]
      unfold pickTop
      rw [if_neg (not_lt.mpr (hmax _
        (List.mem_cons_of_mem _ (firstTopIdx_mem ps (j :: rest) (by simp)))))]

theorem pickTop_comm (ps : List DProc) {a b : ℕ} (z : ℕ)
    (hab : (dGet ps a).sysPriority < (dGet ps b).sysPriority) :
    pickTop ps b (pickTop ps a z) = pickTop ps a (pickTop ps b z) := by
  unfold pickTop
  split_ifs <;> first | rfl | omega

theorem bubblePass_ne_nil (ps : List DProc) (m : ℕ) {q : List ℕ} (h : q ≠ []) :
    bubblePass ps q m ≠ [] := by
  intro hc
  have hl := bubblePass_length ps m q
  rw [hc] at hl
  cases q with
  | nil => exact h rfl
  | cons a t => simp at hl

theorem bubblePass_firstTopIdx (ps : List DProc) :
    ∀ (m : ℕ) (q : List ℕ),
      firstTopIdx ps (bubblePass ps q m) = firstTopIdx ps q := by
  intro m
  induction m with
  | zero => intro q; rw [bubblePass_zero]
  | succ m ih =>
      intro q
      match q with
      | [] => rw [bubblePass_nil]
      | [a] => rw [bubblePass_single]
      | a :: b :: rest =>
          rw [bubblePass_cons]
          by_cases hab : (dGet ps a).sysPriority < (dGet ps b).sysPriority
          · rw [if_pos hab]
            rw [firstTopIdx_cons ps b (bubblePass_ne_nil ps m (by simp)),
              ih (a :: rest)]
            cases rest with
            | nil =>
                rw [firstTopIdx_cons2]
                show pickTop ps b (firstTopIdx ps [a]) =
                  pickTop ps a (firstTopIdx ps [b])
                unfold firstTopIdx pickTop
                rw [if_neg (not_lt.mpr (le_of_lt hab)), if_pos hab]
            | cons c rest' =>
                rw [firstTopIdx_cons ps a (l := c :: rest') (by simp),
                  firstTopIdx_cons2,
                  firstTopIdx_cons ps b (l := c :: rest') (by simp)]
                exact pickTop_comm ps _ hab
          · rw [if_neg hab]
            rw [firstTopIdx_cons ps a (bubblePass_ne_nil ps m (by simp)),
              ih (b :: rest), firstTopIdx_cons2]

theorem bubblePasses_firstTopIdx (ps : List DProc) :
    ∀ (k : ℕ) (q : List ℕ),
      firstTopIdx ps (bubblePasses ps q k) = firstTopIdx ps q := by
  intro k
  induction k with
  | zero => intro q; rfl
  | succ k ih =>
      intro q
      rw [bubblePasses_succ, ih, bubblePass_firstTopIdx]

theorem bubblePass_take_le (ps : List DProc) :
    ∀ (m : ℕ) (q : List ℕ), ∀ x ∈ q.take (m + 2),
      ∃ y ∈ (bubblePass ps q (m + 1)).take (m + 1),
        (dGet ps x).sysPriority ≤ (dGet ps y).sysPriority := by
  intro m
  induction m with
  | zero =>
      intro q x hx
      rcases q with _ | ⟨a, _ | ⟨b, rest⟩⟩
      · simp at hx
      · rw [bubblePass_single]
        simp only [List.take_succ_cons, List.take_nil, List.mem_cons,
          List.not_mem_nil, or_false] at hx
        subst hx
        exact ⟨x, by simp, le_refl _⟩
      · rw [bubblePass_cons]
        simp only [List.take_succ_cons, List.take_zero, List.mem_cons,
          List.not_mem_nil, or_false] at hx
        by_cases hab : (dGet ps a).sysPriority < (dGet ps b).sysPriority
        · rw [if_pos hab]
          refine ⟨b, by simp, ?_⟩
          rcases hx with rfl | rfl
          · exact le_of_lt hab
          · exact le_refl _
        · rw [if_neg hab]
          refine ⟨a, by simp, ?_⟩
          rcases hx with rfl | rfl
          · exact le_refl _
          · exact not_lt.mp hab
  | succ m ih =>
      intro q x hx
      rcases q with _ | ⟨a, _ | ⟨b, rest⟩⟩
      · simp at hx
      · rw [bubblePass_single]
        simp only [List.take_succ_cons, List.take_nil, List.mem_cons,
          List.not_mem_nil, or_false] at hx
        subst hx
        exact ⟨x, by simp, le_refl _⟩
      · rw [bubblePass_cons]
        rw [List.take_succ_cons, List.take_succ_cons] at hx
        by_cases hab : (dGet ps a).sysPriority < (dGet ps b).sysPriority
        · rw [if_pos hab, List.take_succ_cons]
          rcases List.mem_cons.mp hx with rfl | hx1
          · exact ⟨b, List.mem_cons_self _ _, le_of_lt hab⟩
          rcases List.mem_cons.mp hx1 with rfl | hx2
          · exact ⟨x, List.mem_cons_self _ _, le_refl _⟩
          · have hx3 : x ∈ (a :: rest).take (m + 2) := by
              rw [List.take_succ_cons]
              exact List.mem_cons_of_mem _ hx2
            obtain ⟨y, hy, hxy⟩ := ih (a :: rest) x hx3
            exact ⟨y, List.mem_cons_of_mem _ hy, hxy⟩
        · rw [if_neg hab, List.take_succ_cons]
          rcases List.mem_cons.mp hx with rfl | hx1
          · exact ⟨x, List.mem_cons_self _ _, le_refl _⟩
          rcases List.mem_cons.mp hx1 with rfl | hx2
          · exact ⟨a, List.mem_cons_self _ _, not_lt.mp hab⟩
          · have hx3 : x ∈ (b :: rest).take (m + 2) := by
              rw [List.take_succ_cons]
              exact List.mem_cons_of_mem _ hx2
            obtain ⟨y, hy, hxy⟩ := ih (b :: rest) x hx3
            exact ⟨y, List.mem_cons_of_mem _ hy, hxy⟩

theorem bubblePasses_head_ge (ps : List DProc) :
    ∀ (k : ℕ) (q : List ℕ), q ≠ [] → ∀ x ∈ q.take (k + 1),
      (dGet ps x).sysPriority ≤
        (dGet ps ((bubblePasses ps q k).headD 0)).sysPriority := by
  intro k
  induction k with
  | zero =>
      intro q hq x hx
      match q with
      | [] => exact absurd rfl hq
      | a :: t =>
          simp only [List.take_succ_cons, List.take_zero, List.mem_cons,
            List.not_mem_nil, or_false] at hx
          subst hx
          exact le_refl _
  | succ k ih =>
      intro q hq x hx
      rw [bubblePasses_succ]
      obtain ⟨y, hy, hxy⟩ := bubblePass_take_le ps k q x hx
      exact le_trans hxy (ih (bubblePass ps q (k + 1))
        (bubblePass_ne_nil ps (k + 1) hq) y hy)

theorem bubbleQ_headD (ps : List DProc) (q : List ℕ) (hq : q ≠ []) :
    (bubbleQ ps q).headD 0 = firstTopIdx ps q := by
  have hlq : 1 ≤ q.length := List.length_pos.mpr hq
  have htake : q.take (q.length - 1 + 1) = q := by
    rw [Nat.sub_add_cancel hlq, List.take_length]
  have hmax : ∀ x ∈ q, (dGet ps x).sysPriority ≤
      (dGet ps ((bubblePasses ps q (q.length - 1)).headD 0)).sysPriority := by
    intro x hx
    exact bubblePasses_head_ge ps (q.length - 1) q hq x (by rw [htake]; exact hx)
  rcases hR : bubblePasses ps q (q.length - 1) with _ | ⟨h, tl⟩
  · have hl := bubblePasses_length ps (q.length - 1) q
    rw [hR] at hl
    exact absurd (List.length_eq_zero.mp hl.symm) hq
  · have hmem : ∀ x ∈ h :: tl, x ∈ q := by
      intro x hx
      rw [← hR] at hx
      exact (bubblePasses_mem ps _ q x).mp hx
    have hmax' : ∀ x ∈ h :: tl, (dGet ps x).sysPriority ≤ (dGet ps h).sysPriority := by
      intro x hx
      have := hmax x (hmem x hx)
      rw [hR] at this
      exact this
    have hpres := bubblePasses_firstTopIdx ps (q.length - 1) q
    rw [hR] at hpres
    show (bubblePasses ps q (q.length - 1)).headD 0 = _
    rw [hR, ← hpres, firstTopIdx_head_max ps h tl hmax']
    rfl

/-! ## Claim C4 -/

/-- C4, counterexample: two processes with equal vruntime keys, the
earlier-inserted one having id 5 and the later one id 2.  `extract_min` on
the structure built by the two inserts returns the id-5 process, not the
lowest-id process among the minimal keys (which is 2): the tie is *not*
broken by lowest process id. -/
theorem claim_C4_counterexample :
    vrOf psC4 0 = vrOf psC4 1 ∧
    (cGet psC4 0).id = 5 ∧ (cGet psC4 1).id = 2 ∧
    (extractMinVruntime (buildT psC4)).map (fun r => (cGet psC4 r.1).id) = some 5 ∧
    (extractMinVruntime (buildT psC4)).map (fun r => (cGet psC4 r.1).id) ≠ some 2 := by
  decide

/-- C4, amended: whenever extract-selected is performed on a selection
structure containing processes with equal ordering keys, the process
returned is the **earliest-inserted** one among those with minimal key —
not the lowest-id one.  First conjunct pair: the CFS tree built by inserting
a sequence of processes (keys unchanged in between) extracts the
earliest-inserted minimal-vruntime process (equal keys are sent right, the
leftmost node is extracted), and its key is minimal.  Second conjunct pair:
the DPS bubble sort swaps only on strict inequality, so after
`sortQueueByPriority` the queue head — the entry the subsequent `dequeue`
returns — is the earliest-queued process among those with maximal priority,
and its priority is maximal.  (The reference implementation's `qsort`
comparator never inspects the pid, leaving its tie order unspecified.) -/
theorem claim_C4_amended (ps : List CProc) (dps : List DProc) (q : List ℕ)
    (h : ps ≠ []) (hq : q ≠ []) :
    ((extractMinVruntime (buildT ps)).map Prod.fst = some (minFirstIdx ps) ∧
      ∀ j < ps.length, vrOf ps (minFirstIdx ps) ≤ vrOf ps j) ∧
    ((bubbleQ dps q).headD 0 = firstTopIdx dps q ∧
      ∀ j ∈ q, (dGet dps j).sysPriority ≤
        (dGet dps (firstTopIdx dps q)).sysPriority) := by
  refine ⟨?_, bubbleQ_headD dps q hq, firstTopIdx_max dps q⟩
  obtain ⟨p, l, rfl⟩ := List.exists_cons_of_ne_nil h
  constructor
  · rw [extractMinVruntime_eq_leftmostT]
    have hrange : List.range (p :: l).length =
        0 :: List.map Nat.succ (List.range l.length) := by
      rw [List.length_cons, List.range_succ_eq_map]
    have hv0 : validT (p :: l) (RBT.node .leaf 0 .leaf) := by
      simp [validT, tList]
    have hl0 : leftmostT (RBT.node .leaf 0 .leaf) = some 0 := rfl
    have hfold := (leftmostT_foldl_insertT (p :: l)
      (List.map Nat.succ (List.range l.length))
      (RBT.node .leaf 0 .leaf) 0 hv0 hl0).2
    have hbuild : buildT (p :: l) =
        (List.map Nat.succ (List.range l.length)).foldl (insertT (p :: l))
          (RBT.node .leaf 0 .leaf) := by
      rw [buildT, hrange, List.foldl_cons, insertT_leaf]
    have hmin : minFirstIdx (p :: l) =
        minFirstIdxAux (p :: l) 0 (List.map Nat.succ (List.range l.length)) := by
      rw [minFirstIdx, hrange]
      simp only [minFirstIdxAux, List.foldl_cons]
      rw [pickEarlierMin, if_neg (lt_irrefl _)]
    rw [hbuild, hfold, hmin]
  · intro j hj
    exact (vrOf_minFirstIdxAux_le (p :: l) (List.range (p :: l).length) 0).2 j
      (List.mem_range.mpr hj)

/-- C4, witness: the amended theorem applied to a concrete three-process
CFS list whose minimal key first appears at index 1, and a concrete DPS
queue whose two top-priority entries are tied. -/
theorem claim_C4_witness :
    (psW4 ≠ [] ∧ qW4 ≠ []) ∧
    (((extractMinVruntime (buildT psW4)).map Prod.fst = some (minFirstIdx psW4) ∧
      ∀ j < psW4.length, vrOf psW4 (minFirstIdx psW4) ≤ vrOf psW4 j) ∧
    ((bubbleQ dpsW4 qW4).headD 0 = firstTopIdx dpsW4 qW4 ∧
      ∀ j ∈ qW4, (dGet dpsW4 j).sysPriority ≤
        (dGet dpsW4 (firstTopIdx dpsW4 qW4)).sysPriority)) :=
  ⟨⟨by decide, by decide⟩, claim_C4_amended psW4 dpsW4 qW4 (by decide) (by decide)⟩

/-! ## Invariants of `runCFS` (for claim C10)

Every state reachable by `runCFS` from `cfsInit` — including the
stale-duplicate-corrupted trees of the C1/C3 scenarios, which violate the
strict search-tree property — satisfies `cfsInv`: all vruntimes, remaining
times and weights are nonnegative (weights strictly positive for real list
entries), a never-executed process still has vruntime 0, and every tree node
with a nonempty left subtree has a strictly positive current key.  The last
fact survives corruption because vruntimes never decrease and a node only
acquires a left child from an insertion with a then-strictly-smaller key. -/

theorem cIntCast_nonneg {q : ℚ} (h : 0 ≤ q) : 0 ≤ cIntCast q := by
  unfold cIntCast
  rw [if_pos h]
  exact Rat.le_floor.mpr (by exact_mod_cast h)

theorem cIntCast_le_int {q : ℚ} {z : ℤ} (h0 : 0 ≤ q) (h : q ≤ (z : ℚ)) :
    cIntCast q ≤ z := by
  unfold cIntCast
  rw [if_pos h0]
  by_contra hc
  push_neg at hc
  have h1 := Rat.le_floor.mp (Int.add_one_le_iff.mpr hc)
  push_cast at h1
  linarith

theorem execT_bounds (ts : ℚ) (hts : 0 ≤ ts) {rem : ℤ} (hrem : 0 ≤ rem) :
    0 ≤ cIntCast (min ts (rem : ℚ)) ∧ cIntCast (min ts (rem : ℚ)) ≤ rem := by
  have hmin0 : (0 : ℚ) ≤ min ts (rem : ℚ) :=
    le_min hts (by exact_mod_cast hrem)
  exact ⟨cIntCast_nonneg hmin0, cIntCast_le_int hmin0 (min_le_right _ _)⟩

theorem cGet_mem {ps : List CProc} {i : ℕ} (h : i < ps.length) :
    cGet ps i ∈ ps := by
  unfold cGet
  rw [List.getD_eq_getElem?_getD, List.getElem?_eq_getElem h]
  simp

theorem cGet_of_le {ps : List CProc} {i : ℕ} (h : ps.length ≤ i) :
    cGet ps i = default := by
  unfold cGet
  rw [List.getD_eq_getElem?_getD, List.getElem?_eq_none h]
  rfl

theorem cGetOk {ps : List CProc} (h : cfsProcsOk ps) (i : ℕ) :
    0 ≤ (cGet ps i).vruntime ∧ 0 ≤ (cGet ps i).remaining ∧
    0 ≤ (cGet ps i).weight ∧
    ((cGet ps i).executed = false → (cGet ps i).vruntime = 0) := by
  by_cases hlt : i < ps.length
  · obtain ⟨h1, h2, h3, h4⟩ := h _ (cGet_mem hlt)
    exact ⟨h1, h2, le_of_lt h3, h4⟩
  · rw [cGet_of_le (le_of_not_lt hlt)]
    decide

theorem vrOf_nonneg {ps : List CProc} (h : cfsProcsOk ps) (j : ℕ) :
    0 ≤ vrOf ps j := (cGetOk h j).1

theorem vrOf_set_of_ne {ps : List CProc} {p : CProc} {i j : ℕ} (h : i ≠ j) :
    vrOf (ps.set i p) j = vrOf ps j := by
  unfold vrOf cGet
  rw [List.getD_eq_getElem?_getD, List.getD_eq_getElem?_getD,
    List.getElem?_set_ne h]

theorem vrOf_set_self {ps : List CProc} {p : CProc} {i : ℕ}
    (h : i < ps.length) :
    vrOf (ps.set i p) i = p.vruntime := by
  unfold vrOf cGet
  rw [List.getD_eq_getElem?_getD, List.getElem?_set_self h]
  rfl

theorem vrOf_le_set {ps : List CProc} {i : ℕ} {p : CProc}
    (h : (cGet ps i).vruntime ≤ p.vruntime) (j : ℕ) :
    vrOf ps j ≤ vrOf (ps.set i p) j := by
  by_cases hij : i = j
  · subst hij
    by_cases hlen : i < ps.length
    · rw [vrOf_set_self hlen]
      exact h
    · rw [List.set_eq_of_length_le (le_of_not_lt hlen)]
  · rw [vrOf_set_of_ne hij]

theorem vrOf_set_vr_eq {ps : List CProc} {i : ℕ} {p : CProc}
    (h : p.vruntime = (cGet ps i).vruntime) (j : ℕ) :
    vrOf (ps.set i p) j = vrOf ps j := by
  by_cases hij : i = j
  · subst hij
    by_cases hlen : i < ps.length
    · rw [vrOf_set_self hlen]
      exact h
    · rw [List.set_eq_of_length_le (le_of_not_lt hlen)]
  · rw [vrOf_set_of_ne hij]

theorem leftOk_insertT {ps : List CProc} {t : RBT} {i : ℕ}
    (hi : 0 ≤ vrOf ps i) (h : leftOk ps t) : leftOk ps (insertT ps t i) := by
  induction t with
  | leaf =>
      rw [insertT_leaf]
      exact ⟨Or.inl rfl, trivial, trivial⟩
  | node l v r ihl ihr =>
      obtain ⟨hc, hl, hr⟩ := h
      rw [insertT_node]
      split
      · rename_i hlt
        exact ⟨Or.inr (lt_of_le_of_lt hi hlt), ihl hl, hr⟩
      · exact ⟨hc, hl, ihr hr⟩

theorem leftOk_extract {ps : List CProc} :
    ∀ {t : RBT} {j : ℕ} {t' : RBT}, extractMinVruntime t = some (j, t') →
      leftOk ps t → leftOk ps t' := by
  intro t
  induction t with
  | leaf =>
      intro j t' h
      exact absurd h (by simp [extractMinVruntime])
  | node l v r ihl ihr =>
      intro j t' h hok
      obtain ⟨hc, hl, hr⟩ := hok
      cases l with
      | leaf =>
          have h2 : some (v, r) = some (j, t') := h
          obtain ⟨rfl, rfl⟩ : v = j ∧ r = t' := by simpa using h2
          exact hr
      | node la lv lr =>
          have h2 : (match extractMinVruntime (RBT.node la lv lr) with
              | some (k, l') => some (k, RBT.node l' v r)
              | none => none) = some (j, t') := h
          cases hx2 : extractMinVruntime (RBT.node la lv lr) with
          | none =>
              rw [hx2] at h2
              exact absurd h2 (by simp)
          | some pr =>
              obtain ⟨k, l'⟩ := pr
              rw [hx2] at h2
              obtain ⟨rfl, rfl⟩ : k = j ∧ RBT.node l' v r = t' := by simpa using h2
              refine ⟨?_, ihl hx2 hl, hr⟩
              rcases hc with hcl | hcv
              · exact absurd hcl (by simp)
              · exact Or.inr hcv

theorem leftOk_mono {ps ps' : List CProc} {t : RBT}
    (h : ∀ j, vrOf ps j ≤ vrOf ps' j) (hok : leftOk ps t) : leftOk ps' t := by
  induction t with
  | leaf => trivial
  | node l v r ihl ihr =>
      obtain ⟨hc, hl, hr⟩ := hok
      refine ⟨?_, ihl hl, ihr hr⟩
      rcases hc with hcl | hcv
      · exact Or.inl hcl
      · exact Or.inr (lt_of_lt_of_le hcv (h v))

theorem cfsInv_set_ins (ps : List CProc) (t1 : RBT) (ci : ℕ) (P : CProc)
    (hps : cfsProcsOk ps) (ht : leftOk ps t1)
    (hvr : (cGet ps ci).vruntime ≤ P.vruntime)
    (hv : 0 ≤ P.vruntime) (hr : 0 ≤ P.remaining)
    (hw : ci < ps.length → 0 < P.weight)
    (he : P.executed = false → P.vruntime = 0) :
    cfsProcsOk (ps.set ci P) ∧ leftOk (ps.set ci P) t1 ∧
      leftOk (ps.set ci P) (insertT (ps.set ci P) t1 ci) := by
  have hmono : ∀ j, vrOf ps j ≤ vrOf (ps.set ci P) j := vrOf_le_set hvr
  have hok : cfsProcsOk (ps.set ci P) := by
    intro x hx
    by_cases hlen : ci < ps.length
    · rcases List.mem_or_eq_of_mem_set hx with hmem | rfl
      · exact hps x hmem
      · exact ⟨hv, hr, hw hlen, he⟩
    · rw [List.set_eq_of_length_le (le_of_not_lt hlen)] at hx
      exact hps x hx
  have ht' : leftOk (ps.set ci P) t1 := leftOk_mono hmono ht
  refine ⟨hok, ht', leftOk_insertT ?_ ht'⟩
  exact le_trans (vrOf_nonneg hps ci) (hmono ci)

theorem dispatchPropsAux (p : CProc) (E : ℤ) (hv0 : 0 ≤ p.vruntime)
    (hw0 : 0 ≤ p.weight) (hE0 : 0 ≤ E) (hE1 : E ≤ p.remaining) :
    p.vruntime ≤ p.vruntime + (E : ℚ) / p.weight ∧
    0 ≤ p.vruntime + (E : ℚ) / p.weight ∧
    0 ≤ p.remaining - E := by
  have hq : (0 : ℚ) ≤ (E : ℚ) / p.weight :=
    div_nonneg (by exact_mod_cast hE0) hw0
  exact ⟨le_add_of_nonneg_right hq, add_nonneg hv0 hq, sub_nonneg.mpr hE1⟩

theorem foldl_inv {α σ : Type} (P : σ → Prop) (f : σ → α → σ)
    (hstep : ∀ s a, P s → P (f s a)) :
    ∀ (l : List α) (s : σ), P s → P (l.foldl f s) := by
  intro l
  induction l with
  | nil => intro s hs; exact hs
  | cons x xs ih => intro s hs; exact ih _ (hstep s x hs)

theorem cfsInv_topScan {s : CState} (h : cfsInv s) : cfsInv (cfsTopScan s) := by
  unfold cfsTopScan
  refine foldl_inv cfsInv _ ?_ _ s h
  intro st i hst
  obtain ⟨hP, hT⟩ := hst
  dsimp only
  split
  · rename_i hcond
    split
    · rename_i hexec
      have hef : (cGet st.procs i).executed = false := by
        revert hexec
        cases (cGet st.procs i).executed <;> simp
      have hvr0 : (cGet st.procs i).vruntime = 0 := (cGetOk hP i).2.2.2 hef
      have heq : ∀ j,
          vrOf (st.procs.set i { cGet st.procs i with vruntime := 0 }) j =
            vrOf st.procs j :=
        vrOf_set_vr_eq hvr0.symm
      refine ⟨?_, leftOk_insertT ?_
        (leftOk_mono (fun j => le_of_eq (heq j).symm) hT)⟩
      · intro x hx
        by_cases hlen : i < st.procs.length
        · rcases List.mem_or_eq_of_mem_set hx with hmem | rfl
          · exact hP x hmem
          · obtain ⟨h1, h2, h3, h4⟩ := hP _ (cGet_mem hlen)
            exact ⟨le_refl 0, h2, h3, fun _ => rfl⟩
        · rw [List.set_eq_of_length_le (le_of_not_lt hlen)] at hx
          exact hP x hx
      · rw [heq i]
        exact vrOf_nonneg hP i
    · exact ⟨hP, leftOk_insertT (vrOf_nonneg hP i) hT⟩
  · exact ⟨hP, hT⟩

theorem cfsInv_lateScan {s : CState} {execT : ℤ} (h : cfsInv s) :
    cfsInv (cfsLateScan s execT) := by
  unfold cfsLateScan
  refine foldl_inv cfsInv _ ?_ _ s h
  intro st i hst
  obtain ⟨hP, hT⟩ := hst
  dsimp only
  split
  · rename_i hcond
    have hef : (cGet st.procs i).executed = false := by
      have hx := hcond.1
      revert hx
      cases (cGet st.procs i).executed <;> simp
    have hvr0 : (cGet st.procs i).vruntime = 0 := (cGetOk hP i).2.2.2 hef
    have heq : ∀ j,
        vrOf (st.procs.set i { cGet st.procs i with vruntime := 0 }) j =
          vrOf st.procs j :=
      vrOf_set_vr_eq hvr0.symm
    refine ⟨?_, leftOk_insertT ?_
      (leftOk_mono (fun j => le_of_eq (heq j).symm) hT)⟩
    · intro x hx
      by_cases hlen : i < st.procs.length
      · rcases List.mem_or_eq_of_mem_set hx with hmem | rfl
        · exact hP x hmem
        · obtain ⟨h1, h2, h3, h4⟩ := hP _ (cGet_mem hlen)
          exact ⟨le_refl 0, h2, h3, fun _ => rfl⟩
      · rw [List.set_eq_of_length_le (le_of_not_lt hlen)] at hx
        exact hP x hx
    · rw [heq i]
      exact vrOf_nonneg hP i
  · exact ⟨hP, hT⟩

theorem cfsInv_dispatch {s : CState} (h : cfsInv s) : cfsInv (cfsDispatch s) := by
  obtain ⟨hP, hT⟩ := h
  unfold cfsDispatch
  split
  · exact ⟨hP, hT⟩
  · rename_i ci tree1 hx
    have hT1 : leftOk s.procs tree1 := leftOk_extract hx hT
    obtain ⟨hv0, hr0, hw0, hev0⟩ := cGetOk hP ci
    have hwgt : ci < s.procs.length → 0 < (cGet s.procs ci).weight :=
      fun hlen => (hP _ (cGet_mem hlen)).2.2.1
    dsimp only
    by_cases hpe : (cGet s.procs ci).executed = true
    · simp only [if_pos hpe]
      split
      · have hEb := execT_bounds 1 zero_le_one hr0
        have hprops := dispatchPropsAux (cGet s.procs ci) _ hv0 hw0 hEb.1 hEb.2
        split
        · apply cfsInv_lateScan
          refine ⟨(cfsInv_set_ins s.procs tree1 ci _ hP hT1 ?_ ?_ ?_ ?_ ?_).1,
                  (cfsInv_set_ins s.procs tree1 ci _ hP hT1 ?_ ?_ ?_ ?_ ?_).2.1⟩ <;>
            first
              | exact hprops.1
              | exact hprops.2.1
              | exact hprops.2.2
              | exact hwgt
              | (intro hc; simp [hpe] at hc)
        · apply cfsInv_lateScan
          refine ⟨(cfsInv_set_ins s.procs tree1 ci _ hP hT1 ?_ ?_ ?_ ?_ ?_).1,
                  (cfsInv_set_ins s.procs tree1 ci _ hP hT1 ?_ ?_ ?_ ?_ ?_).2.2⟩ <;>
            first
              | exact hprops.1
              | exact hprops.2.1
              | exact hprops.2.2
              | exact hwgt
              | (intro hc; simp [hpe] at hc)
      · rename_i hts
        have hEb := execT_bounds _ (le_trans zero_le_one (not_lt.mp hts)) hr0
        have hprops := dispatchPropsAux (cGet s.procs ci) _ hv0 hw0 hEb.1 hEb.2
        split
        · apply cfsInv_lateScan
          refine ⟨(cfsInv_set_ins s.procs tree1 ci _ hP hT1 ?_ ?_ ?_ ?_ ?_).1,
                  (cfsInv_set_ins s.procs tree1 ci _ hP hT1 ?_ ?_ ?_ ?_ ?_).2.1⟩ <;>
            first
              | exact hprops.1
              | exact hprops.2.1
              | exact hprops.2.2
              | exact hwgt
              | (intro hc; simp [hpe] at hc)
        · apply cfsInv_lateScan
          refine ⟨(cfsInv_set_ins s.procs tree1 ci _ hP hT1 ?_ ?_ ?_ ?_ ?_).1,
                  (cfsInv_set_ins s.procs tree1 ci _ hP hT1 ?_ ?_ ?_ ?_ ?_).2.2⟩ <;>
            first
              | exact hprops.1
              | exact hprops.2.1
              | exact hprops.2.2
              | exact hwgt
              | (intro hc; simp [hpe] at hc)
    · simp only [if_neg hpe]
      split
      · have hEb := execT_bounds 1 zero_le_one hr0
        have hprops := dispatchPropsAux (cGet s.procs ci) _ hv0 hw0 hEb.1 hEb.2
        split
        · apply cfsInv_lateScan
          refine ⟨(cfsInv_set_ins s.procs tree1 ci _ hP hT1 ?_ ?_ ?_ ?_ ?_).1,
                  (cfsInv_set_ins s.procs tree1 ci _ hP hT1 ?_ ?_ ?_ ?_ ?_).2.1⟩ <;>
            first
              | exact hprops.1
              | exact hprops.2.1
              | exact hprops.2.2
              | exact hwgt
              | (intro hc; simp at hc)
        · apply cfsInv_lateScan
          refine ⟨(cfsInv_set_ins s.procs tree1 ci _ hP hT1 ?_ ?_ ?_ ?_ ?_).1,
                  (cfsInv_set_ins s.procs tree1 ci _ hP hT1 ?_ ?_ ?_ ?_ ?_).2.2⟩ <;>
            first
              | exact hprops.1
              | exact hprops.2.1
              | exact hprops.2.2
              | exact hwgt
              | (intro hc; simp at hc)
      · rename_i hts
        have hEb := execT_bounds _ (le_trans zero_le_one (not_lt.mp hts)) hr0
        have hprops := dispatchPropsAux (cGet s.procs ci) _ hv0 hw0 hEb.1 hEb.2
        split
        · apply cfsInv_lateScan
          refine ⟨(cfsInv_set_ins s.procs tree1 ci _ hP hT1 ?_ ?_ ?_ ?_ ?_).1,
                  (cfsInv_set_ins s.procs tree1 ci _ hP hT1 ?_ ?_ ?_ ?_ ?_).2.1⟩ <;>
            first
              | exact hprops.1
              | exact hprops.2.1
              | exact hprops.2.2
              | exact hwgt
              | (intro hc; simp at hc)
        · apply cfsInv_lateScan
          refine ⟨(cfsInv_set_ins s.procs tree1 ci _ hP hT1 ?_ ?_ ?_ ?_ ?_).1,
                  (cfsInv_set_ins s.procs tree1 ci _ hP hT1 ?_ ?_ ?_ ?_ ?_).2.2⟩ <;>
            first
              | exact hprops.1
              | exact hprops.2.1
              | exact hprops.2.2
              | exact hwgt
              | (intro hc; simp at hc)

theorem cfsInv_iter {s : CState} (h : cfsInv s) : cfsInv (cfsIter s) := by
  have h1 := cfsInv_topScan h
  unfold cfsIter
  dsimp only
  split
  · exact ⟨h1.1, h1.2⟩
  · exact cfsInv_dispatch ⟨h1.1, h1.2⟩

theorem runCFS_succ (s : CState) (f : ℕ) :
    runCFS s (f + 1) =
      if s.completedCount < s.n then runCFS (cfsIter s) f else s := rfl

theorem cfsInv_runCFS {s : CState} (h : cfsInv s) (fuel : ℕ) :
    cfsInv (runCFS s fuel) := by
  induction fuel generalizing s with
  | zero => exact h
  | succ f ih =>
      rw [runCFS_succ]
      split
      · exact ih (cfsInv_iter h)
      · exact h

theorem cfsInv_init {ps0 : List CProc}
    (h0 : ∀ p ∈ ps0, 0 ≤ p.remaining ∧ 0 < p.weight ∧ p.vruntime = 0 ∧
      p.executed = false) :
    cfsInv (cfsInit ps0) := by
  constructor
  · intro p hp
    obtain ⟨h1, h2, h3, h4⟩ := h0 p hp
    exact ⟨le_of_eq h3.symm, h1, h2, fun _ => h3⟩
  · trivial

theorem tList_insert_zero_prefix {ps : List CProc} (i : ℕ)
    (hi : vrOf ps i = 0) :
    ∀ t : RBT, leftOk ps t →
      ∃ l1 l2, tList (insertT ps t i) = l1 ++ i :: l2 ∧
        ∀ j ∈ l1, vrOf ps j ≤ 0 := by
  intro t
  induction t with
  | leaf =>
      intro _
      exact ⟨[], [], by simp [insertT_leaf, tList], by simp⟩
  | node l v r ihl ihr =>
      intro hK
      obtain ⟨hc, hl, hr⟩ := hK
      rw [insertT_node]
      by_cases hlt : vrOf ps i < vrOf ps v
      · rw [if_pos hlt]
        obtain ⟨l1, l2, heq, hle⟩ := ihl hl
        refine ⟨l1, l2 ++ v :: tList r, ?_, hle⟩
        show tList (insertT ps l i) ++ v :: tList r =
          l1 ++ i :: (l2 ++ v :: tList r)
        rw [heq]
        simp
      · rw [if_neg hlt]
        have hv0 : ¬ 0 < vrOf ps v := fun hcon => hlt (by rw [hi]; exact hcon)
        have hleaf : l = RBT.leaf := by
          rcases hc with h1 | h2
          · exact h1
          · exact absurd h2 hv0
        subst hleaf
        obtain ⟨l1, l2, heq, hle⟩ := ihr hr
        refine ⟨v :: l1, l2, ?_, ?_⟩
        · show tList RBT.leaf ++ v :: tList (insertT ps r i) =
            (v :: l1) ++ i :: l2
          rw [heq]
          simp [tList]
        · intro j hj
          rcases List.mem_cons.mp hj with rfl | hj2
          · exact not_lt.mp hv0
          · exact hle j hj2

theorem mem_left_of_split {α : Type} :
    ∀ (l1 m1 m2 l2 : List α) (i y : α),
      l1 ++ i :: l2 = m1 ++ y :: m2 → y ∉ l1 → y ≠ i → i ∈ m1 := by
  intro l1
  induction l1 with
  | nil =>
      intro m1 m2 l2 i y h2 hy1 hyi
      cases m1 with
      | nil =>
          simp only [List.nil_append, List.cons.injEq] at h2
          exact absurd h2.1.symm hyi
      | cons b m1' =>
          simp only [List.nil_append, List.cons_append, List.cons.injEq] at h2
          rw [h2.1]
          exact List.mem_cons_self b m1'
  | cons a l1' ih =>
      intro m1 m2 l2 i y h2 hy1 hyi
      cases m1 with
      | nil =>
          simp only [List.nil_append, List.cons_append, List.cons.injEq] at h2
          exact absurd (by rw [← h2.1]; exact List.mem_cons_self a l1') hy1
      | cons b m1' =>
          simp only [List.cons_append, List.cons.injEq] at h2
          have hrec := ih m1' m2 l2 i y h2.2
            (fun hcon => hy1 (List.mem_cons_of_mem a hcon)) hyi
          exact List.mem_cons_of_mem b hrec

theorem cfsInv_firstEntry {s : CState} (hinv : cfsInv s) (i y : ℕ)
    (hfirst : (cGet s.procs i).executed = false)
    (hpos : 0 < vrOf s.procs y) :
    vrOf s.procs i = 0 ∧
    (∀ j, vrOf s.procs i ≤ vrOf s.procs j) ∧
    (∀ l1 l2,
      tList (insertT (s.procs.set i { cGet s.procs i with vruntime := 0 })
        s.tree i) = l1 ++ y :: l2 → i ∈ l1) := by
  obtain ⟨hP, hT⟩ := hinv
  have hvr0 : vrOf s.procs i = 0 := (cGetOk hP i).2.2.2 hfirst
  have heq : ∀ j,
      vrOf (s.procs.set i { cGet s.procs i with vruntime := 0 }) j =
        vrOf s.procs j :=
    vrOf_set_vr_eq hvr0.symm
  refine ⟨hvr0, ?_, ?_⟩
  · intro j
    rw [hvr0]
    exact vrOf_nonneg hP j
  · intro l1 l2 hsplit
    have hK : leftOk (s.procs.set i { cGet s.procs i with vruntime := 0 })
        s.tree :=
      leftOk_mono (fun j => le_of_eq (heq j).symm) hT
    have hi0 : vrOf (s.procs.set i { cGet s.procs i with vruntime := 0 }) i
        = 0 := by
      rw [heq i]
      exact hvr0
    obtain ⟨p1, p2, hpe2, hple⟩ := tList_insert_zero_prefix i hi0 s.tree hK
    have hy1 : y ∉ p1 := by
      intro hcon
      have hle := hple y hcon
      rw [heq y] at hle
      exact absurd hpos (not_lt.mpr hle)
    have hyi : y ≠ i := by
      intro hcon
      rw [hcon, hvr0] at hpos
      exact lt_irrefl 0 hpos
    rw [hpe2] at hsplit
    exact mem_left_of_split p1 l1 l2 p2 i y hsplit hy1 hyi

/-! ## Claim C10 -/

/-- C10: for every initial process list whose records enter `runCFS` as
`readProcessesFromFile` builds them (nonnegative remaining time, positive
weight, vruntime 0, not yet executed) and for every state reachable from
`cfsInit` by any number of loop iterations — including states whose tree
holds stale duplicates — a process `i` that has never executed has
vruntime 0, which is at or below every process's current vruntime, and
after the insertion the code performs (reset vruntime to 0, then insert),
the in-order position of `i` — the order in which repeated
`extractMinVruntime` delivers the nodes — precedes every incumbent `y`
whose current vruntime is strictly positive. -/
theorem claim_C10 (ps0 : List CProc)
    (h0 : ∀ p ∈ ps0, 0 ≤ p.remaining ∧ 0 < p.weight ∧ p.vruntime = 0 ∧
      p.executed = false)
    (fuel : ℕ) (i y : ℕ)
    (hfirst : (cGet (runCFS (cfsInit ps0) fuel).procs i).executed = false)
    (hpos : 0 < vrOf (runCFS (cfsInit ps0) fuel).procs y) :
    vrOf (runCFS (cfsInit ps0) fuel).procs i = 0 ∧
    (∀ j, vrOf (runCFS (cfsInit ps0) fuel).procs i ≤
      vrOf (runCFS (cfsInit ps0) fuel).procs j) ∧
    (∀ l1 l2,
      tList (insertT
        ((runCFS (cfsInit ps0) fuel).procs.set i
          { cGet (runCFS (cfsInit ps0) fuel).procs i with vruntime := 0 })
        (runCFS (cfsInit ps0) fuel).tree i) = l1 ++ y :: l2 → i ∈ l1) :=
  cfsInv_firstEntry (cfsInv_runCFS (cfsInv_init h0) fuel) i y hfirst hpos

/-- C10, witness: the theorem applied after 3 loop iterations on a
four-process input that reproduces the stale-duplicate corruption (the C3
scenario plus a process arriving at t = 20): the never-executed process 4
(index 3) has vruntime 0 and would be extracted before the preempted
process 3 (index 2), whose vruntime is strictly positive. -/
theorem claim_C10_witness :
    ((∀ p ∈ inputW10, 0 ≤ p.remaining ∧ 0 < p.weight ∧ p.vruntime = 0 ∧
        p.executed = false) ∧
      (cGet (runCFS (cfsInit inputW10) 3).procs 3).executed = false ∧
      0 < vrOf (runCFS (cfsInit inputW10) 3).procs 2) ∧
    (vrOf (runCFS (cfsInit inputW10) 3).procs 3 = 0 ∧
      (∀ j, vrOf (runCFS (cfsInit inputW10) 3).procs 3 ≤
        vrOf (runCFS (cfsInit inputW10) 3).procs j) ∧
      (∀ l1 l2,
        tList (insertT
          ((runCFS (cfsInit inputW10) 3).procs.set 3
            { cGet (runCFS (cfsInit inputW10) 3).procs 3 with vruntime := 0 })
          (runCFS (cfsInit inputW10) 3).tree 3) = l1 ++ 2 :: l2 → 3 ∈ l1)) :=
  ⟨⟨by decide, by decide, by decide⟩,
    claim_C10 inputW10 (by decide) 3 3 2 (by decide) (by decide)⟩

/-! ## Claim C1 -/

/-- C1: on `inputC1` the `runDPS_DTQ` loop exits (the completion counter
reaches `n = 3`) although process 3 still has `remaining_burst = 10`: the
sum of the executed slice lengths is 3 while the sum of the burst times is
13, and process 3's remaining time never reaches 0.  (Process 2 arrives
exactly when the first slice ends, is enqueued by both arrival scans, and
its stale duplicate is later dispatched for 0 units and counted as a second
completion.) -/
theorem claim_C1 :
    (runDPS_DTQ (dpsInit inputC1) 10).completedCount = 3 ∧
    (dGet (runDPS_DTQ (dpsInit inputC1) 10).procs 2).remaining = 10 ∧
    ganttBusySum (runDPS_DTQ (dpsInit inputC1) 10).gantt = 3 ∧
    burstSumD inputC1 = 13 ∧
    ganttBusySum (runDPS_DTQ (dpsInit inputC1) 10).gantt ≠ burstSumD inputC1 := by
  decide

/-! ## Claim C2 -/

/-- C2: on `inputC2`, at the start of the second loop iteration (right after
the top-of-loop arrival scan) the ready queue of `runDPS_DTQ` holds process
2 twice — the end-of-slice scan of the first iteration and the top-of-loop
scan of the second both enqueued it — so the selection structure does not
hold the arrived-and-unfinished processes without duplicates. -/
theorem claim_C2 :
    ((dpsArrivalScan (runDPS_DTQ (dpsInit inputC2) 1)).queue.map
      (fun i => (dGet (dpsArrivalScan (runDPS_DTQ (dpsInit inputC2) 1)).procs i).id))
      = [2, 2] ∧
    ¬ ((dpsArrivalScan (runDPS_DTQ (dpsInit inputC2) 1)).queue.map
      (fun i => (dGet (dpsArrivalScan (runDPS_DTQ (dpsInit inputC2) 1)).procs i).id)).Nodup := by
  decide

/-! ## Claim C3 -/

/-- C3: on `inputC3` the fourth iteration of the `runCFS` loop is a dispatch
step (it appends the non-idle Gantt entry `(2, 9, 9)`), yet the total
remaining work is 2 both before and after it: the stale duplicate of
process 2 is extracted with `remaining_burst = 0` and executes 0 units, so
not every dispatch strictly decreases the total remaining work. -/
theorem claim_C3 :
    sumRemainingC (runCFS (cfsInit inputC3) 3).procs = 2 ∧
    (runCFS (cfsInit inputC3) 3).gantt = [(1, 0, 2), (2, 2, 3), (3, 3, 9)] ∧
    (runCFS (cfsInit inputC3) 4).gantt =
      [(1, 0, 2), (2, 2, 3), (3, 3, 9), (2, 9, 9)] ∧
    sumRemainingC (runCFS (cfsInit inputC3) 4).procs = 2 := by
  decide

/-! ## Claim C5 -/

/-- C5: on `inputC5` the first dispatch of `runCFS` at time 0 (when only
process 1 has arrived) executes a slice of 10 units, computed from the
static total weight over all `n = 2` processes, whereas the quantum computed
from the weights of exactly the arrived-and-unfinished processes — as the
specification requires — is 20. -/
theorem claim_C5 :
    (runCFS (cfsInit inputC5) 1).gantt = [(1, 0, 10)] ∧
    specActiveSlice (cGet (cfsInit inputC5).procs 0) (cfsInit inputC5).procs 0
      (cfsInit inputC5).minGranularity (cfsInit inputC5).latency = 20 ∧
    ((10 : ℚ) ≠ 20) := by
  decide

/-! ## Claim C6 -/

/-- C6: in the first dispatch of `runDPS_DTQ` on the single-process
`inputC6`, `sortQueueByPriority` first computes the priority 7/200 and
overwrites the process's `system_priority` (originally 0) with
`(int)(priority*100) = 3`; the immediately following quantum computation
re-runs `calculateDynamicPriority` on the overwritten field and obtains
13/200 — not the 7/200 given by the specification's four-component formula
with the original base priority.  After the run the stored field is 6, the
scaled cache of the corrupted value. -/
theorem claim_C6 :
    (calculateDynamicPriority
      (calculateDynamicPriority (dGet (dpsInit inputC6).procs 0) 0
        { dtqInit with loadFactor := 1 }).1 0
      (calculateDynamicPriority (dGet (dpsInit inputC6).procs 0) 0
        { dtqInit with loadFactor := 1 }).2.1).2.2 = 13/200 ∧
    specDynamicPriority (dGet (dpsInit inputC6).procs 0) 0 = 7/200 ∧
    ((13 : ℚ)/200 ≠ 7/200) ∧
    (dGet (runDPS_DTQ (dpsInit inputC6) 5).procs 0).sysPriority = 6 := by
  decide

/-! ## Claim C8 -/

/-- C8: on `inputC3` the Gantt chart recorded by `runCFS` ends with the
zero-length entry `(2, 9, 9)` (the dispatch of the stale duplicate of
process 2), so not every recorded interval satisfies `start < end`. -/
theorem claim_C8 :
    (runCFS (cfsInit inputC3) 10).gantt =
      [(1, 0, 2), (2, 2, 3), (3, 3, 9), (2, 9, 9)] ∧
    ¬ ∀ e ∈ (runCFS (cfsInit inputC3) 10).gantt, e.2.1 < e.2.2 := by
  decide

/-! ## Claim C9 -/

/-- C9: on the single-process `inputC9` the finished process has waiting
time 0, so the mean waiting time is 0; the metrics code divides
`std_dev / mean_waiting` with no special case, so the load-balancing
efficiency is undefined (`none`, NaN in C) for every possible square-root
function — it is not the value 1 that the specification requires. -/
theorem claim_C9 (sqrtFn : ℚ → ℚ) :
    loadBalancingEfficiencyOf sqrtFn (runCFS (cfsInit inputC9) 5).procs = none := by
  have hw : ((runCFS (cfsInit inputC9) 5).procs.map
      (fun p => ((p.waiting : ℤ) : ℚ))).sum /
      (((runCFS (cfsInit inputC9) 5).procs.length : ℕ) : ℚ) = 0 := by
    decide
  simp only [loadBalancingEfficiencyOf, cdiv, hw]
  simp

/-! ## Claim C7 -/

/-- C7, counterexample: with ready remaining times `[1, 2]` the mean and the
median are both 3/2, so the specification's quantum
`max(1, round((mean+median)/2))` is 2, but the first scheduling decision of
the model computes `(int)((mean+median)/2) = 1` — the C cast truncates
instead of rounding. -/
theorem claim_C7_counterexample :
    (rIter (rInit inputC7)).quantums = [1] ∧
    specRefQuantum [1, 2] = 2 ∧
    (rIter (rInit inputC7)).quantums.headD 0 ≠ specRefQuantum [1, 2] := by
  decide

theorem ite_lt_one_eq_max (z : ℤ) : (if z < 1 then 1 else z) = max 1 z := by
  rcases le_or_lt 1 z with h | h
  · rw [if_neg (not_lt.mpr h), max_eq_right h]
  · rw [if_pos h, max_eq_left (le_of_lt h)]

theorem rIter_dispatch (s : RState) (cur : RProc) (qrest : List RProc) (idx : ℕ)
    (hq : rSortQ (rArrive s).queue = cur :: qrest)
    (hidx : (List.range (rArrive s).n).find?
      (fun i => (rGet (rArrive s).procs i).pid = cur.pid) = some idx) :
    (rIter s).quantums = (rArrive s).quantums ++
      [max 1 (cIntCast ((rMean ((cur :: qrest).map (·.remaining)) +
        rMedian ((cur :: qrest).map (·.remaining))) / 2))] ∧
    (rIter s).time = (rArrive s).time +
      min (max 1 (cIntCast ((rMean ((cur :: qrest).map (·.remaining)) +
        rMedian ((cur :: qrest).map (·.remaining))) / 2))) cur.remaining := by
  have hlen : 0 < (rArrive s).queue.length := by
    by_contra hc
    push_neg at hc
    have hnil : (rArrive s).queue = [] := List.length_eq_zero.mp (Nat.le_zero.mp hc)
    rw [hnil] at hq
    simp [rSortQ] at hq
  simp only [rIter]
  rw [if_pos hlen, hq]
  dsimp only
  rw [hidx]
  dsimp only
  rw [ite_lt_one_eq_max]
  split
  · rename_i hc
    refine ⟨rfl, ?_⟩
    dsimp only
    rw [min_eq_right hc]
  · rename_i hc
    refine ⟨rfl, ?_⟩
    dsimp only
    rw [min_eq_left (le_of_lt (not_le.mp hc))]

/-- C7, amended: at every scheduling decision with a nonempty ready set
(and a dispatchable head), the shared quantum recorded by the model equals
`max(1, trunc((mean + median)/2))` — truncation toward zero, not rounding —
over the remaining times of all ready processes; the selected process is one
with minimal remaining time among the ready set, and the simulated time
advances by exactly `min(quantum, remaining)` of the selected process. -/
theorem claim_C7_amended (s : RState) (h : (rArrive s).queue ≠ [])
    (h2 : ((List.range (rArrive s).n).find? (fun i =>
      (rGet (rArrive s).procs i).pid =
        ((rSortQ (rArrive s).queue).headD default).pid)).isSome) :
    (rIter s).quantums =
      (rArrive s).quantums ++ [refSharedQuantum (rArrive s).queue] ∧
    (rIter s).time = (rArrive s).time +
      min (refSharedQuantum (rArrive s).queue)
        ((rSortQ (rArrive s).queue).headD default).remaining ∧
    ∀ p ∈ (rArrive s).queue,
      ((rSortQ (rArrive s).queue).headD default).remaining ≤ p.remaining := by
  obtain ⟨cur, qrest, hq⟩ : ∃ c q, rSortQ (rArrive s).queue = c :: q := by
    rcases hqq : rSortQ (rArrive s).queue with _ | ⟨c, q⟩
    · exact absurd hqq (rSortQ_ne_nil h)
    · exact ⟨c, q, rfl⟩
  have hhead : (rSortQ (rArrive s).queue).headD default = cur := by
    rw [hq]; rfl
  have hmin : ∀ p ∈ (rArrive s).queue, cur.remaining ≤ p.remaining := by
    intro p hp
    have hps := pairwise_rSortQ (rArrive s).queue
    rw [hq, List.pairwise_cons] at hps
    have hp' : p ∈ rSortQ (rArrive s).queue := mem_rSortQ.mpr hp
    rw [hq] at hp'
    rcases List.mem_cons.mp hp' with rfl | h3
    · exact le_refl _
    · exact hps.1 p h3
  rw [hhead] at h2
  obtain ⟨idx, hidx⟩ := Option.isSome_iff_exists.mp h2
  have hrefq : refSharedQuantum (rArrive s).queue =
      max 1 (cIntCast ((rMean ((cur :: qrest).map (·.remaining)) +
        rMedian ((cur :: qrest).map (·.remaining))) / 2)) := by
    rw [refSharedQuantum, hq]
  have hd := rIter_dispatch s cur qrest idx hq hidx
  refine ⟨?_, ?_, ?_⟩
  · rw [hrefq, hd.1]
  · rw [hrefq, hhead, hd.2]
  · rw [hhead]
    exact hmin

/-- C7, witness: the amended theorem applied at the concrete two-process
input with ready remaining times `[1, 2]`. -/
theorem claim_C7_witness :
    ((rArrive (rInit inputC7)).queue ≠ [] ∧
      ((List.range (rArrive (rInit inputC7)).n).find? (fun i =>
        (rGet (rArrive (rInit inputC7)).procs i).pid =
          ((rSortQ (rArrive (rInit inputC7)).queue).headD default).pid)).isSome) ∧
    ((rIter (rInit inputC7)).quantums =
      (rArrive (rInit inputC7)).quantums ++
        [refSharedQuantum (rArrive (rInit inputC7)).queue] ∧
    (rIter (rInit inputC7)).time = (rArrive (rInit inputC7)).time +
      min (refSharedQuantum (rArrive (rInit inputC7)).queue)
        ((rSortQ (rArrive (rInit inputC7)).queue).headD default).remaining ∧
    ∀ p ∈ (rArrive (rInit inputC7)).queue,
      ((rSortQ (rArrive (rInit inputC7)).queue).headD default).remaining ≤
        p.remaining) :=
  ⟨⟨by decide, by decide⟩,
    claim_C7_amended (rInit inputC7) (by decide) (by decide)⟩
